import Mathlib

/-!
# ble_scan: producer (main/gattc_demo.c) and consumer (ble_client.c)

Shallow embedding of the device discovery aggregation protocol.

Conventions.
* A C string is represented by the list of its characters before the
  terminating NUL (one `Char` per byte).
* `uint8_t` values are natural numbers below 256, `int` values are integers
  in the 32-bit signed range; arithmetic that can leave the range is wrapped
  explicitly.
* Loops are functions with an explicit fuel argument; the entry points pass a
  fuel that is shown to be sufficient.
-/

namespace BleScan

/-! ## Producer: name sanitizer (main/gattc_demo.c, lines 67-102) -/

/-- The value of `max_len - 1` in `size_t` arithmetic (32 bits on the target). -/
def size_sub_one (max_len : Nat) : Nat := (max_len + 2 ^ 32 - 1) % 2 ^ 32

/-- The `while` loop of `sanitize_device_name`: `i` is the input index,
`output` the bytes written so far (so `output_idx = output.length`). -/
def sanitize_loop (name : List Nat) (name_len max_len : Nat) :
    Nat → Nat → List Nat → List Nat
  | 0, _, output => output
  | fuel + 1, i, output =>
    if i < name_len ∧ output.length < size_sub_one max_len then
      let c := name.getD i 0
      if c = 44 then
        sanitize_loop name name_len max_len fuel (i + 1) (output ++ [32])
      else if c < 128 then
        if c ≥ 32 ∧ c ≤ 126 then
          sanitize_loop name name_len max_len fuel (i + 1) (output ++ [c])
        else
          sanitize_loop name name_len max_len fuel (i + 1) output
      else if Nat.land c 0xF0 = 0xF0 then
        sanitize_loop name name_len max_len fuel (i + 3 + 1) output
      else if Nat.land c 0xE0 = 0xE0 then
        sanitize_loop name name_len max_len fuel (i + 2 + 1) output
      else if Nat.land c 0xC0 = 0xC0 then
        sanitize_loop name name_len max_len fuel (i + 1 + 1) output
      else
        sanitize_loop name name_len max_len fuel (i + 1) output
    else output

/-- The text `sanitize_device_name` leaves in `output` (the bytes before the
terminator written at `output[output_idx]`).  Every iteration advances `i`,
so `name_len` iterations are enough. -/
def sanitize_device_name (name : List Nat) (name_len max_len : Nat) : List Nat :=
  sanitize_loop name name_len max_len name_len 0 []

/-! ## Producer: scan results and the serializer (main/gattc_demo.c) -/

/-- One entry of `scan_results`: `bda` holds the six address bytes, `rssi` is
an `int8_t`, `name` the sanitized name bytes before the terminator. -/
structure scanned_device_t where
  bda : List Nat
  rssi : Int
  name : List Nat
  has_name : Bool
deriving DecidableEq

/-- C library `printf("%02X", b)` for an unsigned value: uppercase hexadecimal,
padded with a zero to two digits. -/
def fmt_02X (b : Nat) : List Char :=
  let ds := (Nat.toDigits 16 b).map Char.toUpper
  if ds.length < 2 then (List.replicate (2 - ds.length) '0') ++ ds else ds

/-- C library `printf("%d", v)`: base 10, a minus sign for negative values. -/
def fmt_d (v : Int) : List Char :=
  if v < 0 then '-' :: Nat.toDigits 10 v.natAbs else Nat.toDigits 10 v.natAbs

/-- The inner `for (j = 0; j < 6; j++)` loop of `display_sorted_results`
(lines 207-210), started at index `j` with `fuel` iterations left. -/
def print_mac_loop (bda : List Nat) : Nat → Nat → List Char
  | 0, _ => []
  | fuel + 1, j =>
    if j < 6 then
      fmt_02X (bda.getD j 0) ++ (if j < 5 then [':'] else []) ++
        print_mac_loop bda fuel (j + 1)
    else []

/-- The address text printed for one device: six iterations from `j = 0`. -/
def print_mac (bda : List Nat) : List Char := print_mac_loop bda 6 0

/-- The line `display_sorted_results` prints for one device that passes the
RSSI filter (lines 203-216), without the final newline. -/
def print_device_line (device : scanned_device_t) : List Char :=
  "DEV,".toList ++ print_mac device.bda ++ [','] ++ fmt_d device.rssi ++
    [','] ++ (if device.has_name then device.name.map Char.ofNat else [])

/-! ## Consumer (ble_client.c) -/

def MAX_DEVICES_INITIAL : Nat := 10

def MAX_NAME_LEN : Nat := 64

/-- The consumer record: `mac` is a `char[18]`, `name` a `char[MAX_NAME_LEN]`,
`rssi` an `int`. -/
structure ble_device_t where
  mac : List Char
  rssi : Int
  name : List Char
deriving DecidableEq

/-- Conversion of an integer to `int` (32-bit two's complement wrap-around). -/
def int_wrap (v : Int) : Int := (v + 2 ^ 31) % 2 ^ 32 - 2 ^ 31

/-- C library `isspace` in the C locale. -/
def isspace (c : Char) : Bool :=
  c.toNat = 32 || (9 ≤ c.toNat && c.toNat ≤ 13)

/-- C library `isdigit`. -/
def isdigit (c : Char) : Bool := 48 ≤ c.toNat && c.toNat ≤ 57

/-- The digit-accumulating part of `atoi`: stops at the first non-digit. -/
def atoi_digits : Int → List Char → Int
  | acc, [] => acc
  | acc, c :: cs =>
    if isdigit c then atoi_digits (acc * 10 + ((c.toNat : Int) - 48)) cs else acc

/-- C library `atoi`: skips leading white space, reads an optional sign and
the longest run of decimal digits that follows; 0 when there is none.  The
value is converted to `int` by wrap-around. -/
def atoi (s : List Char) : Int :=
  match s.dropWhile isspace with
  | [] => 0
  | c :: t =>
    if c = '-' then int_wrap (- atoi_digits 0 t)
    else if c = '+' then int_wrap (atoi_digits 0 t)
    else int_wrap (atoi_digits 0 (c :: t))

/-- C library `strtok` with the delimiter set ",": `s` is the text from the
saved position to the terminator.  Leading commas are skipped; `none` when
nothing is left, otherwise the token up to the next comma and the text after
that comma (the new saved position). -/
def strtok (s : List Char) : Option (List Char × List Char) :=
  match s.dropWhile (fun c => c == ',') with
  | [] => none
  | c :: t =>
    some ((c :: t).takeWhile (fun c => c != ','),
          ((c :: t).dropWhile (fun c => c != ',')).drop 1)

/-- The `while (token != NULL && field < 3)` loop of `parse_device_line`.
`tok` is the current token with the text that follows it.  Returns the final
`field` and the record. -/
def parse_loop : Nat → Option (List Char × List Char) → Nat → ble_device_t →
    Nat × ble_device_t
  | 0, _, field, device => (field, device)
  | _ + 1, none, field, device => (field, device)
  | fuel + 1, some (token, rest), field, device =>
    if field < 3 then
      let device :=
        match field with
        | 0 => { device with mac := token.take 17 }
        | 1 => { device with rssi := atoi token }
        | 2 => { device with name := token.take (MAX_NAME_LEN - 1) }
        | _ => device
      parse_loop fuel (strtok rest) (field + 1) device
    else (field, device)

/-- Embedding of `parse_device_line`: the return value and the caller's record
after the call.  `field` grows by one per iteration and the loop stops at 3,
so three iterations are enough. -/
def parse_device_line (line : List Char) (device : ble_device_t) : Int × ble_device_t :=
  if line.take 4 ≠ "DEV,".toList then (0, device)
  else
    let line_copy := (line.drop 4).take 255
    let device := { device with name := [] }
    let r := parse_loop 3 (strtok line_copy) 0 device
    (if r.1 ≥ 2 then 1 else 0, r.2)

/-- Embedding of `compare_devices`: the subtraction is done in `int`. -/
def compare_devices (a b : ble_device_t) : Int := int_wrap (b.rssi - a.rssi)

/-- The module-level aggregator state: `devices` holds the first `device_count`
entries of the array, so `device_count = devices.length`. -/
structure client_state where
  devices : List ble_device_t
  device_capacity : Nat
deriving DecidableEq

/-- State after a successful `init_device_array`. -/
def init_device_array : client_state :=
  { devices := [], device_capacity := MAX_DEVICES_INITIAL }

/-- Embedding of `resize_device_array`; `realloc_ok` tells whether `realloc`
succeeds when it is called. -/
def resize_device_array (realloc_ok : Bool) (st : client_state) : Int × client_state :=
  if st.devices.length ≥ st.device_capacity then
    let new_capacity := st.device_capacity * 2
    if !realloc_ok then (-1, st)
    else (0, { st with device_capacity := new_capacity })
  else (0, st)

/-- The lookup loop of `add_or_update_device` (lines 203-216): `none` when no
entry has the address, otherwise the array after the update of the first
entry that has it. -/
def update_existing (new_device : ble_device_t) : List ble_device_t → Option (List ble_device_t)
  | [] => none
  | d :: ds =>
    if d.mac = new_device.mac then
      if new_device.rssi > d.rssi then
        if new_device.name ≠ [] ∧ d.name = [] then
          some ({ d with rssi := new_device.rssi,
                         name := new_device.name.take (MAX_NAME_LEN - 1) } :: ds)
        else some ({ d with rssi := new_device.rssi } :: ds)
      else some (d :: ds)
    else (update_existing new_device ds).map (fun r => d :: r)

/-- Embedding of `add_or_update_device`: the return value and the new state. -/
def add_or_update_device (realloc_ok : Bool) (st : client_state) (new_device : ble_device_t) :
    Int × client_state :=
  match update_existing new_device st.devices with
  | some ds => (0, { st with devices := ds })
  | none =>
    let r := resize_device_array realloc_ok st
    if r.1 ≠ 0 then (0, r.2)
    else (1, { r.2 with devices := r.2.devices ++ [new_device] })

/-- A sequence of `add_or_update_device` calls in which array growth always
succeeds. -/
def add_all (st : client_state) (calls : List ble_device_t) : client_state :=
  calls.foldl (fun s d => (add_or_update_device true s d).2) st

/-! ## Specification-side definitions -/

/-- A byte the wire format accepts inside a name: printable ASCII, not a comma. -/
def wire_safe (b : Nat) : Prop := 32 ≤ b ∧ b ≤ 126 ∧ b ≠ 44

/-- The entry that replaces `d` when a sighting `n` of the same address
arrives (lines 206-213). -/
def merged (d n : ble_device_t) : ble_device_t :=
  if n.rssi > d.rssi then
    if n.name ≠ [] ∧ d.name = [] then
      { d with rssi := n.rssi, name := n.name.take (MAX_NAME_LEN - 1) }
    else { d with rssi := n.rssi }
  else d

/-- Invariant linking the stored entries with the sightings `seen` so far:
addresses are stored once, every stored strength is the strongest one seen
for its address, and every address seen is stored. -/
structure agg_inv (st : client_state) (seen : List ble_device_t) : Prop where
  nodup : (st.devices.map ble_device_t.mac).Nodup
  best : ∀ r ∈ st.devices, (∀ c ∈ seen, c.mac = r.mac → c.rssi ≤ r.rssi) ∧
    ∃ c ∈ seen, c.mac = r.mac ∧ c.rssi = r.rssi
  present : ∀ c ∈ seen, ∃ r ∈ st.devices, r.mac = c.mac

/-- Sample sightings: address A at -80, address B at -50, address A at -70. -/
def sample_calls : List ble_device_t :=
  [⟨"AA:BB:CC:DD:EE:01".toList, -80, []⟩, ⟨"AA:BB:CC:DD:EE:02".toList, -50, []⟩,
   ⟨"AA:BB:CC:DD:EE:01".toList, -70, "Tag1".toList⟩]

/-- Uppercase hexadecimal digit of a value below 16. -/
def hex_digit_upper (n : Nat) : Char := "0123456789ABCDEF".toList.getD n '0'

/-- One address byte written as two uppercase hexadecimal digits, the high
half first. -/
def octet_text (b : Nat) : List Char := [hex_digit_upper (b / 16), hex_digit_upper (b % 16)]

/-- The canonical text of an address, `XX:XX:XX:XX:XX:XX`: every byte as two
uppercase hexadecimal digits, the bytes in order and joined by colons. -/
def canonical_mac (bda : List Nat) : List Char :=
  List.intercalate [':'] (bda.map octet_text)

/-- Sample producer record: named `Tag1`, seen at -65. -/
def sample_record : scanned_device_t :=
  { bda := [0xAA, 0xBB, 0xCC, 0xDD, 0xEE, 0x01], rssi := -65,
    name := [84, 97, 103, 49], has_name := true }

/-- Value of a string of decimal digits, most significant digit first. -/
def dec_value (ds : List Char) : Int :=
  ds.foldl (fun v c => v * 10 + ((c.toNat : Int) - 48)) 0

/-- Integer denoted by an optional sign followed by a digit string. -/
def signed_value (sign ds : List Char) : Int :=
  if sign = ['-'] then - dec_value ds else dec_value ds

/-- A call sets the stored name of its address when it carries a name and is
strictly stronger than every earlier call `pre` for that address (the first
call is stronger than none). -/
def name_setter (pre : List ble_device_t) (c : ble_device_t) : Prop :=
  c.name ≠ [] ∧ ∀ p ∈ pre, p.rssi < c.rssi

/-- The text `nm` is the name carried by the earliest name-setting call of
`calls`, or empty when no call of `calls` is name-setting. -/
def earliest_setter_name (calls : List ble_device_t) (nm : List Char) : Prop :=
  (nm = [] ∧ ∀ pre c post, calls = pre ++ c :: post → ¬ name_setter pre c) ∨
  (∃ pre c post, calls = pre ++ c :: post ∧ name_setter pre c ∧ nm = c.name ∧
    ∀ pre2 c2 post2, calls = pre2 ++ c2 :: post2 → pre2.length < pre.length →
      ¬ name_setter pre2 c2)

/-- One element of a well-formed name: a single byte, or a multi-byte
sequence made of a lead byte and its continuation bytes. -/
inductive name_unit where
  | single (b : Nat)
  | multi (lead : Nat) (cont : List Nat)

/-- The bytes of one element. -/
def unit_bytes : name_unit → List Nat
  | name_unit.single b => [b]
  | name_unit.multi lead cont => lead :: cont

/-- Well-formed elements: a single byte is below 128; a multi-byte sequence
has a lead byte `110xxxxx`, `1110xxxx` or `11110xxx` followed by exactly 1, 2
or 3 continuation bytes `10xxxxxx`. -/
def unit_valid : name_unit → Prop
  | name_unit.single b => b < 128
  | name_unit.multi lead cont =>
    lead < 256 ∧ (∀ c ∈ cont, c < 256 ∧ Nat.land c 0xC0 = 0x80) ∧
    ((Nat.land lead 0xE0 = 0xC0 ∧ cont.length = 1) ∨
     (Nat.land lead 0xF0 = 0xE0 ∧ cont.length = 2) ∨
     (Nat.land lead 0xF8 = 0xF0 ∧ cont.length = 3))

instance unit_valid_decidable : (u : name_unit) → Decidable (unit_valid u)
  | name_unit.single b => (inferInstance : Decidable (b < 128))
  | name_unit.multi lead cont =>
    (inferInstance : Decidable (lead < 256 ∧ (∀ c ∈ cont, c < 256 ∧ Nat.land c 0xC0 = 0x80) ∧
      ((Nat.land lead 0xE0 = 0xC0 ∧ cont.length = 1) ∨
       (Nat.land lead 0xF0 = 0xE0 ∧ cont.length = 2) ∨
       (Nat.land lead 0xF8 = 0xF0 ∧ cont.length = 3))))

/-- The input bytes: the concatenation of the elements. -/
def units_bytes : List name_unit → List Nat
  | [] => []
  | u :: us => unit_bytes u ++ units_bytes us

/-- What the reference keeps of one element: a comma becomes a space, another
printable byte (32..126) is copied, a control byte and a multi-byte sequence
are deleted. -/
def unit_reference : name_unit → List Nat
  | name_unit.single b => if b = 44 then [32] else if 32 ≤ b ∧ b ≤ 126 then [b] else []
  | name_unit.multi _ _ => []

/-- The reference text of a well-formed name, before truncation. -/
def reference_sanitize : List name_unit → List Nat
  | [] => []
  | u :: us => unit_reference u ++ reference_sanitize us

/-- Sample well-formed name: `A`, a comma, a three-byte sequence, `B`, a
control byte and a two-byte sequence. -/
def sample_units : List name_unit :=
  [name_unit.single 65, name_unit.single 44, name_unit.multi 0xE2 [0x82, 0xAC],
   name_unit.single 66, name_unit.single 7, name_unit.multi 0xC3 [0xA9]]

/-! ## Consumer: line framer (ble_client.c, lines 111-153) -/

/-- One pass through the wait of `read_line_with_timeout` (lines 120-141), as
the transport presents it; `now` is the clock (`time(NULL)`, in seconds) at
that moment.
* `byte c now`: `select` reports data and `read` delivers the byte `c`;
* `no_data now`: the 1-second `select` elapses with no data;
* `select_error now`: `select` fails;
* `read_none now`: `select` reports data but `read` delivers nothing. -/
inductive io_event where
  | byte (c : Nat) (now : Int)
  | no_data (now : Int)
  | select_error (now : Int)
  | read_none (now : Int)
deriving DecidableEq

/-- The `while (pos < buffer_size - 1)` loop of `read_line_with_timeout` over
the events the transport presents; `buffer` holds the bytes stored so far
(`pos = buffer.length`).  The result is the return value with the buffer
text, or `none` when the call is still waiting after the last listed event. -/
def read_line_loop (buffer_size timeout_seconds start_time : Int) :
    List io_event → List Nat → Option (Int × List Nat)
  | [], buffer =>
    if (buffer.length : Int) < buffer_size - 1 then none
    else some (buffer.length, buffer)
  | e :: rest, buffer =>
    if (buffer.length : Int) < buffer_size - 1 then
      match e with
      | io_event.select_error _ => some (-1, buffer)
      | io_event.no_data now =>
        if now - start_time ≥ timeout_seconds then some (-2, buffer)
        else read_line_loop buffer_size timeout_seconds start_time rest buffer
      | io_event.read_none _ =>
        read_line_loop buffer_size timeout_seconds start_time rest buffer
      | io_event.byte c _ =>
        if c = 10 then some (buffer.length, buffer)
        else if c ≠ 13 then
          read_line_loop buffer_size timeout_seconds start_time rest (buffer ++ [c])
        else read_line_loop buffer_size timeout_seconds start_time rest buffer
    else some (buffer.length, buffer)

/-- Embedding of `read_line_with_timeout`: `start_time` is the clock when the
call begins. -/
def read_line_with_timeout (events : List io_event)
    (buffer_size timeout_seconds start_time : Int) : Option (Int × List Nat) :=
  read_line_loop buffer_size timeout_seconds start_time events []

/-- The bytes delivered by a sequence of events, in order. -/
def delivered : List io_event → List Nat
  | [] => []
  | io_event.byte c _ :: rest => c :: delivered rest
  | _ :: rest => delivered rest

/-- The bytes of a stream before its first newline, carriage returns
removed. -/
def received_line (stream : List Nat) : List Nat :=
  (stream.takeWhile (fun c => c ≠ 10)).filter (fun c => c ≠ 13)

/-! ## Producer: collector and event handler (main/gattc_demo.c) -/

def MAX_SCAN_DEVICES : Nat := 100

def MIN_RSSI : Int := -85

/-- Embedding of `device_exists_in_results`: the loop over the stored
entries, `memcmp` comparing the six address bytes. -/
def device_exists_in_results : List scanned_device_t → List Nat → Bool
  | [], _ => false
  | d :: ds, bda =>
    if d.bda.take 6 = bda.take 6 then true else device_exists_in_results ds bda

/-- The entry `add_device_to_results` fills in for a new device (lines
132-147); `adv_name = none` stands for the `NULL` pointer. -/
def new_scanned_device (bda : List Nat) (rssi : Int) (adv_name : Option (List Nat))
    (adv_name_len : Nat) : scanned_device_t :=
  match adv_name with
  | some name =>
    if adv_name_len > 0 then
      { bda := bda.take 6, rssi := rssi,
        name := sanitize_device_name name adv_name_len 32, has_name := true }
    else { bda := bda.take 6, rssi := rssi, name := [], has_name := false }
  | none => { bda := bda.take 6, rssi := rssi, name := [], has_name := false }

/-- Embedding of `add_device_to_results` on the stored entries
(`scan_results_count` is the length of the list). -/
def add_device_to_results (scan_results : List scanned_device_t) (bda : List Nat)
    (rssi : Int) (adv_name : Option (List Nat)) (adv_name_len : Nat) :
    List scanned_device_t :=
  if scan_results.length ≥ MAX_SCAN_DEVICES then scan_results
  else if device_exists_in_results scan_results bda then scan_results
  else scan_results ++ [new_scanned_device bda rssi adv_name adv_name_len]

/-- Embedding of `compare_devices_by_rssi`: both strengths are `int8_t`
values promoted to `int`, so the subtraction stays in range. -/
def compare_devices_by_rssi (a b : scanned_device_t) : Int := b.rssi - a.rssi

/-- Insertion of one entry into a list ordered by `compare_devices_by_rssi`. -/
def insert_by_rssi (x : scanned_device_t) : List scanned_device_t → List scanned_device_t
  | [] => [x]
  | y :: ys =>
    if compare_devices_by_rssi x y ≤ 0 then x :: y :: ys else y :: insert_by_rssi x ys

/-- C library `qsort` with `compare_devices_by_rssi`, taken as a stable
insertion sort (C leaves the order of equal elements open). -/
def qsort_by_rssi : List scanned_device_t → List scanned_device_t
  | [] => []
  | x :: xs => insert_by_rssi x (qsort_by_rssi xs)

/-- The display loop of `display_sorted_results` (lines 195-218): one line
per entry that passes the RSSI filter. -/
def display_lines : List scanned_device_t → List Char
  | [] => []
  | d :: ds =>
    if d.rssi < MIN_RSSI then display_lines ds
    else print_device_line d ++ ['\n'] ++ display_lines ds

/-- Embedding of `display_sorted_results`: the text written to the standard
output for the stored entries. -/
def display_sorted_results (scan_results : List scanned_device_t) : List Char :=
  if scan_results.length = 0 then "No devices found during scan.\n".toList
  else
    let sorted := qsort_by_rssi scan_results
    let filtered_count := (sorted.filter (fun d => d.rssi ≥ MIN_RSSI)).length
    let header :=
      "\n=== BLE Scan Results (RSSI >= ".toList ++ fmt_d MIN_RSSI ++
        " dBm, sorted by signal strength) ===\n".toList ++
      "Found ".toList ++ fmt_d scan_results.length ++ " devices total, ".toList ++
        fmt_d filtered_count ++ " devices above RSSI threshold:\n\n".toList
    if filtered_count = 0 then
      header ++ "No devices found with RSSI >= ".toList ++ fmt_d MIN_RSSI ++ " dBm.\n".toList
    else header ++ display_lines sorted ++ "\n".toList

/-- The producer's module-level state: the stored entries, the text written
to the standard output so far, whether `scan_timer` has been created, and the
number of `esp_timer_start_once` calls made. -/
structure producer_state where
  scan_results : List scanned_device_t
  output : List Char
  scan_timer : Bool
  timer_starts : Nat
deriving DecidableEq

/-- Embedding of `send_scan_end`: display, the `END` line, clearing of the
results and the restart timer. -/
def send_scan_end (st : producer_state) : producer_state :=
  { scan_results := [],
    output := st.output ++ display_sorted_results st.scan_results ++ "END\n".toList,
    scan_timer := st.scan_timer,
    timer_starts := if st.scan_timer then st.timer_starts + 1 else st.timer_starts }

/-- What the radio stack reports for one advertisement: address, signal
strength, and what `esp_ble_resolve_adv_data` finds for the complete name,
the shortened name and the manufacturer data (`none` for `NULL`). -/
structure adv_report where
  bda : List Nat
  rssi : Int
  name_cmpl : Option (List Nat)
  name_short : Option (List Nat)
  manu_data : Option (List Nat)
deriving DecidableEq

/-- The length `esp_ble_resolve_adv_data` stores with its result. -/
def resolved_length (p : Option (List Nat)) : Nat :=
  match p with
  | some d => d.length
  | none => 0

/-- The name selection of the `ESP_GAP_SEARCH_INQ_RES_EVT` branch (lines
346-384): the name pointer and `adv_name_len` passed on. -/
def resolve_adv_name (r : adv_report) : Option (List Nat) × Nat :=
  let a1 := (r.name_cmpl, resolved_length r.name_cmpl)
  let a2 := if a1.1 = none ∨ a1.2 = 0 then (r.name_short, resolved_length r.name_short) else a1
  if a2.1 = none ∨ a2.2 = 0 then
    match r.manu_data with
    | some m =>
      if m.length > 2 then
        if ((m.drop 2).take 10).all (fun b => !(b < 32 || b > 126)) then
          (some (m.drop 2), m.length - 2)
        else (none, 0)
      else a2
    | none => a2
  else a2

/-- The events `esp_gap_cb` distinguishes; a scan result event carries its
`search_evt`. -/
inductive gap_event where
  | scan_param_set_complete
  | scan_start_complete (success : Bool)
  | search_inq_res (report : adv_report)
  | search_inq_cmpl
  | search_other
  | scan_stop_complete (success : Bool)
  | adv_stop_complete (success : Bool)
  | update_conn_params
  | other
deriving DecidableEq

/-- Embedding of `esp_gap_cb` as a step on the producer state (log output is
not part of the state). -/
def esp_gap_cb (st : producer_state) : gap_event → producer_state
  | gap_event.search_inq_res report =>
    { st with scan_results :=
        (add_device_to_results st.scan_results report.bda report.rssi
          (resolve_adv_name report).1 (resolve_adv_name report).2) }
  | gap_event.search_inq_cmpl => send_scan_end st
  | gap_event.scan_stop_complete _ => send_scan_end st
  | _ => st

/-- The lines of a text: the pieces between newlines, `cur` being the piece
read so far. -/
def text_lines_from : List Char → List Char → List (List Char)
  | cur, [] => if cur = [] then [] else [cur]
  | cur, c :: cs =>
    if c = '\n' then cur :: text_lines_from [] cs else text_lines_from (cur ++ [c]) cs

/-- Number of `END` lines in a text. -/
def end_count (text : List Char) : Nat :=
  (text_lines_from [] text).count "END".toList

/-- A scan window in progress with one stored entry and nothing written. -/
def sample_window : producer_state :=
  { scan_results := [sample_record], output := [], scan_timer := true, timer_starts := 0 }

/-! ## Theorems -/

theorem sanitize_loop_safe (name : List Nat) (name_len max_len : Nat) :
    ∀ (fuel i : Nat) (output : List Nat), (∀ b ∈ output, wire_safe b) →
      ∀ b ∈ sanitize_loop name name_len max_len fuel i output, wire_safe b := by
  intro fuel
  induction fuel with
  | zero => intro i output h; simpa [sanitize_loop] using h
  | succ fuel ih =>
    intro i output h
    have hsp : ∀ b ∈ output ++ [32], wire_safe b := by
      intro b hb
      rcases List.mem_append.mp hb with hb | hb
      · exact h b hb
      · simp at hb; subst hb; simp [wire_safe]
    simp only [sanitize_loop]
    split_ifs with h1 h2 h3 h4 h5 h6 h7
    · exact ih _ _ hsp
    · refine ih _ _ ?_
      intro b hb
      rcases List.mem_append.mp hb with hb | hb
      · exact h b hb
      · rw [List.mem_singleton] at hb; subst hb; exact ⟨h4.1, h4.2, h2⟩
    · exact ih _ _ h
    · exact ih _ _ h
    · exact ih _ _ h
    · exact ih _ _ h
    · exact ih _ _ h
    · exact h

/-- C1: for every input byte sequence, every `name_len` and every `max_len`,
the text written by `sanitize_device_name` contains no comma and no byte
outside 32..126. -/
theorem sanitize_device_name_safe (name : List Nat) (name_len max_len : Nat) :
    ∀ b ∈ sanitize_device_name name name_len max_len, 32 ≤ b ∧ b ≤ 126 ∧ b ≠ 44 := by
  intro b hb
  exact sanitize_loop_safe name name_len max_len name_len 0 [] (by simp) b hb

/-- On the name `A,` + a three-byte sequence + `B` + a control byte + a stray
high byte the sanitizer writes `A B`; its second byte, the space that
replaces the comma, is within the accepted range. -/
theorem sanitize_device_name_safe_witness :
    32 ∈ sanitize_device_name [65, 44, 0xE2, 0x82, 0xAC, 66, 7, 200] 8 32 ∧
    (32 ≤ 32 ∧ 32 ≤ 126 ∧ 32 ≠ 44) :=
  ⟨by decide, sanitize_device_name_safe [65, 44, 0xE2, 0x82, 0xAC, 66, 7, 200] 8 32 32
    (by decide)⟩

theorem takeWhile_field (a rest : List Char) (hc : ',' ∉ a) :
    (a ++ ',' :: rest).takeWhile (fun c => c != ',') = a := by
  induction a with
  | nil => simp
  | cons x xs ih =>
    have hx : x ≠ ',' := fun h => hc (by simp [h])
    have hxs : ',' ∉ xs := fun h => hc (by simp [h])
    simp [List.takeWhile_cons, hx, ih hxs]

theorem dropWhile_field (a rest : List Char) (hc : ',' ∉ a) :
    (a ++ ',' :: rest).dropWhile (fun c => c != ',') = ',' :: rest := by
  induction a with
  | nil => simp
  | cons x xs ih =>
    have hx : x ≠ ',' := fun h => hc (by simp [h])
    have hxs : ',' ∉ xs := fun h => hc (by simp [h])
    simp [List.dropWhile_cons, hx, ih hxs]

theorem takeWhile_last (a : List Char) (hc : ',' ∉ a) :
    a.takeWhile (fun c => c != ',') = a := by
  induction a with
  | nil => simp
  | cons x xs ih =>
    have hx : x ≠ ',' := fun h => hc (by simp [h])
    have hxs : ',' ∉ xs := fun h => hc (by simp [h])
    simp [List.takeWhile_cons, hx, ih hxs]

theorem dropWhile_last (a : List Char) (hc : ',' ∉ a) :
    a.dropWhile (fun c => c != ',') = [] := by
  induction a with
  | nil => simp
  | cons x xs ih =>
    have hx : x ≠ ',' := fun h => hc (by simp [h])
    have hxs : ',' ∉ xs := fun h => hc (by simp [h])
    simp [List.dropWhile_cons, hx, ih hxs]

theorem strtok_nil : strtok [] = none := rfl

/-- A non-empty comma-free field followed by a comma is the next token. -/
theorem strtok_field (a rest : List Char) (ha : a ≠ []) (hc : ',' ∉ a) :
    strtok (a ++ ',' :: rest) = some (a, rest) := by
  cases a with
  | nil => exact absurd rfl ha
  | cons x xs =>
    have hx : x ≠ ',' := fun h => hc (by simp [h])
    have h1 : (x :: xs ++ ',' :: rest).dropWhile (fun c => c == ',') = x :: (xs ++ ',' :: rest) := by
      simp [List.dropWhile_cons, hx]
    have h2 := takeWhile_field (x :: xs) rest hc
    have h3 := dropWhile_field (x :: xs) rest hc
    simp only [List.cons_append] at h2 h3
    simp only [strtok, h1, h2, h3, List.drop_succ_cons, List.drop_zero]

/-- A non-empty comma-free field at the end of the text is the last token. -/
theorem strtok_last (a : List Char) (ha : a ≠ []) (hc : ',' ∉ a) :
    strtok a = some (a, []) := by
  cases a with
  | nil => exact absurd rfl ha
  | cons x xs =>
    have hx : x ≠ ',' := fun h => hc (by simp [h])
    have h1 : (x :: xs).dropWhile (fun c => c == ',') = x :: xs := by
      simp [List.dropWhile_cons, hx]
    have h2 := takeWhile_last (x :: xs) hc
    have h3 := dropWhile_last (x :: xs) hc
    simp only [strtok, h1, h2, h3, List.drop_nil]

/-- Leading commas are skipped by `strtok`. -/
theorem strtok_comma (s : List Char) : strtok (',' :: s) = strtok s := by
  simp [strtok, List.dropWhile_cons]

/-- A line that starts with the prefix and fits the working copy is parsed
from the text after the prefix. -/
theorem parse_device_line_after_tag (x : List Char) (device : ble_device_t)
    (hx : x.length ≤ 255) :
    parse_device_line ("DEV,".toList ++ x) device =
      (if (parse_loop 3 (strtok x) 0 { device with name := [] }).1 ≥ 2 then 1 else 0,
       (parse_loop 3 (strtok x) 0 { device with name := [] }).2) := by
  have h1 : ("DEV,".toList ++ x).take 4 = "DEV,".toList := by
    simp [List.take_append_eq_append_take]
  have h2 : ("DEV,".toList ++ x).drop 4 = x := by
    simp [List.drop_append_eq_append_drop]
  have h3 : x.take 255 = x := List.take_of_length_le hx
  simp only [parse_device_line, h1, h2, h3, ne_eq, not_true_eq_false, if_false]

/-- The third iteration never touches the address or the signal strength. -/
theorem parse_loop_third (t : Option (List Char × List Char)) (d : ble_device_t) :
    (parse_loop 1 t 2 d).1 ≥ 2 ∧ (parse_loop 1 t 2 d).2.rssi = d.rssi ∧
      (parse_loop 1 t 2 d).2.mac = d.mac := by
  cases t with
  | none => simp [parse_loop]
  | some p => obtain ⟨tok, rest⟩ := p; simp [parse_loop]

/-- Two fields: address and signal strength, nothing after. -/
theorem parse_loop_two (a r : List Char) (d : ble_device_t)
    (ha : a ≠ []) (hac : ',' ∉ a) (hr : r ≠ []) (hrc : ',' ∉ r) :
    parse_loop 3 (strtok (a ++ ',' :: r)) 0 d =
      (2, { d with mac := a.take 17, rssi := atoi r }) := by
  rw [strtok_field a r ha hac]
  simp [parse_loop, strtok_last r hr hrc, strtok_nil]

/-- Three fields, the third one possibly empty. -/
theorem parse_loop_three (a r n : List Char) (d : ble_device_t)
    (ha : a ≠ []) (hac : ',' ∉ a) (hr : r ≠ []) (hrc : ',' ∉ r) (hnc : ',' ∉ n) :
    (parse_loop 3 (strtok (a ++ ',' :: (r ++ ',' :: n))) 0 { d with name := [] }).1 ≥ 2 ∧
    (parse_loop 3 (strtok (a ++ ',' :: (r ++ ',' :: n))) 0 { d with name := [] }).2 =
      { mac := a.take 17, rssi := atoi r, name := n.take (MAX_NAME_LEN - 1) } := by
  rw [strtok_field a _ ha hac]
  by_cases hn : n = []
  · subst hn
    simp [parse_loop, strtok_field r _ hr hrc, strtok_nil]
  · simp [parse_loop, strtok_field r _ hr hrc, strtok_last n hn hnc]

/-- Four or more fields: the text after the third field is not looked at. -/
theorem parse_loop_four (a r n extra : List Char) (d : ble_device_t)
    (ha : a ≠ []) (hac : ',' ∉ a) (hr : r ≠ []) (hrc : ',' ∉ r)
    (hn : n ≠ []) (hnc : ',' ∉ n) :
    parse_loop 3 (strtok (a ++ ',' :: (r ++ ',' :: (n ++ ',' :: extra)))) 0 d =
      (3, { mac := a.take 17, rssi := atoi r, name := n.take (MAX_NAME_LEN - 1) }) := by
  rw [strtok_field a _ ha hac]
  simp [parse_loop, strtok_field r _ hr hrc, strtok_field n _ hn hnc]

/-- One field only: the loop stops with `field = 1` (or 0 when the field is
empty). -/
theorem parse_loop_one (a : List Char) (d : ble_device_t) (hac : ',' ∉ a) :
    (parse_loop 3 (strtok a) 0 d).1 < 2 := by
  by_cases ha : a = []
  · subst ha; simp [parse_loop, strtok_nil]
  · simp [parse_loop, strtok_last a ha hac, strtok_nil]

/-- Fuel beyond `name_len - i` does not change the result of the sanitizer
loop: the loop has stopped by then. -/
theorem sanitize_loop_fuel (name : List Nat) (name_len max_len : Nat) :
    ∀ (fuel i : Nat) (output : List Nat), name_len - i ≤ fuel →
      sanitize_loop name name_len max_len (fuel + 1) i output =
        sanitize_loop name name_len max_len fuel i output := by
  intro fuel
  induction fuel with
  | zero =>
    intro i output h
    have hi : ¬ i < name_len := by omega
    simp [sanitize_loop, hi]
  | succ fuel ih =>
    intro i output h
    conv_lhs => rw [sanitize_loop]
    conv_rhs => rw [sanitize_loop]
    simp only
    split_ifs with h1
    all_goals first
      | rfl
      | (apply ih; omega)

/-- Fuel beyond `6 - j` does not change the text of the address loop. -/
theorem print_mac_loop_fuel (bda : List Nat) : ∀ (fuel j : Nat), 6 - j ≤ fuel →
    print_mac_loop bda (fuel + 1) j = print_mac_loop bda fuel j := by
  intro fuel
  induction fuel with
  | zero =>
    intro j h
    have hj : ¬ j < 6 := by omega
    simp [print_mac_loop, hj]
  | succ fuel ih =>
    intro j h
    conv_lhs => rw [print_mac_loop]
    conv_rhs => rw [print_mac_loop]
    split_ifs with h1
    all_goals first
      | rfl
      | rw [ih (j + 1) (by omega)]

/-- Fuel beyond `3 - field` does not change the result of the parse loop. -/
theorem parse_loop_fuel : ∀ (fuel : Nat) (t : Option (List Char × List Char)) (field : Nat)
    (d : ble_device_t), 3 - field ≤ fuel →
      parse_loop (fuel + 1) t field d = parse_loop fuel t field d := by
  intro fuel
  induction fuel with
  | zero =>
    intro t field d h
    have hf : ¬ field < 3 := by omega
    cases t with
    | none => simp [parse_loop]
    | some p => obtain ⟨tok, rest⟩ := p; simp [parse_loop, hf]
  | succ fuel ih =>
    intro t field d h
    cases t with
    | none => simp [parse_loop]
    | some p =>
      obtain ⟨tok, rest⟩ := p
      simp only [parse_loop]
      split_ifs with h1
      · apply ih; omega
      · rfl

theorem merged_mac (d n : ble_device_t) : (merged d n).mac = d.mac := by
  unfold merged; split_ifs <;> rfl

theorem merged_rssi (d n : ble_device_t) : (merged d n).rssi = max d.rssi n.rssi := by
  unfold merged
  split_ifs with h1 h2
  · simp only; omega
  · simp only; omega
  · omega

theorem update_existing_eq_none (n : ble_device_t) (ds : List ble_device_t) :
    update_existing n ds = none ↔ ∀ d ∈ ds, d.mac ≠ n.mac := by
  induction ds with
  | nil => simp [update_existing]
  | cons d ds ih =>
    unfold update_existing
    by_cases h : d.mac = n.mac
    · simp only [h, if_true]
      constructor
      · intro h2; split_ifs at h2
      · intro h2; exact absurd h (h2 d (List.mem_cons_self _ _))
    · simp only [h, if_false, Option.map_eq_none', ih, List.mem_cons, forall_eq_or_imp,
        ne_eq, not_false_eq_true, true_and]

theorem update_existing_split (n d : ble_device_t) (pre post : List ble_device_t)
    (hpre : ∀ x ∈ pre, x.mac ≠ n.mac) (hd : d.mac = n.mac) :
    update_existing n (pre ++ d :: post) = some (pre ++ merged d n :: post) := by
  induction pre with
  | nil =>
    simp only [List.nil_append, update_existing, hd, if_true, merged]
    split_ifs <;> rfl
  | cons x xs ih =>
    have hx : x.mac ≠ n.mac := hpre x (List.mem_cons_self _ _)
    have hxs : ∀ y ∈ xs, y.mac ≠ n.mac := fun y hy => hpre y (List.mem_cons_of_mem _ hy)
    rw [List.cons_append, update_existing]
    simp only [hx, if_false, ih hxs, Option.map_some', List.cons_append]

theorem exists_first_match (n : ble_device_t) (ds : List ble_device_t)
    (h : ∃ d ∈ ds, d.mac = n.mac) :
    ∃ pre d post, ds = pre ++ d :: post ∧ (∀ x ∈ pre, x.mac ≠ n.mac) ∧ d.mac = n.mac := by
  induction ds with
  | nil => obtain ⟨d, hd, _⟩ := h; cases hd
  | cons x xs ih =>
    by_cases hx : x.mac = n.mac
    · exact ⟨[], x, xs, rfl, by simp, hx⟩
    · obtain ⟨d, hd, hdm⟩ := h
      rcases List.mem_cons.mp hd with rfl | hd
      · exact absurd hdm hx
      · obtain ⟨pre, d2, post, e, hp, hm⟩ := ih ⟨d, hd, hdm⟩
        refine ⟨x :: pre, d2, post, by simp [e], ?_, hm⟩
        intro y hy
        rcases List.mem_cons.mp hy with rfl | hy
        · exact hx
        · exact hp y hy

/-- The call when no stored entry has the address and growth succeeds. -/
theorem add_absent (st : client_state) (n : ble_device_t)
    (h : ∀ d ∈ st.devices, d.mac ≠ n.mac) :
    (add_or_update_device true st n).1 = 1 ∧
      (add_or_update_device true st n).2.devices = st.devices ++ [n] := by
  have h0 := (update_existing_eq_none n st.devices).mpr h
  unfold add_or_update_device resize_device_array
  rw [h0]
  by_cases hc : st.devices.length ≥ st.device_capacity <;> simp [hc]

/-- The call when the first entry with the address is `d`. -/
theorem add_present (ok : Bool) (st : client_state) (n d : ble_device_t)
    (pre post : List ble_device_t) (e : st.devices = pre ++ d :: post)
    (hpre : ∀ x ∈ pre, x.mac ≠ n.mac) (hd : d.mac = n.mac) :
    add_or_update_device ok st n = (0, { st with devices := pre ++ merged d n :: post }) := by
  unfold add_or_update_device
  rw [e, update_existing_split n d pre post hpre hd]

theorem agg_inv_init : agg_inv init_device_array [] := by
  refine ⟨by simp [init_device_array], ?_, ?_⟩
  · intro r hr; simp [init_device_array] at hr
  · intro c hc; cases hc

theorem agg_inv_step (st : client_state) (seen : List ble_device_t) (n : ble_device_t)
    (inv : agg_inv st seen) :
    agg_inv (add_or_update_device true st n).2 (seen ++ [n]) := by
  by_cases hp : ∃ d ∈ st.devices, d.mac = n.mac
  · obtain ⟨pre, d, post, e, hpre, hd⟩ := exists_first_match n st.devices hp
    rw [add_present true st n d pre post e hpre hd]
    have hnd := inv.nodup
    rw [e] at hnd
    simp only [List.map_append, List.map_cons] at hnd
    have hpost : ∀ x ∈ post, x.mac ≠ n.mac := by
      intro x hx hxm
      have h1 := (List.nodup_append.mp hnd).2.1
      have h2 := (List.nodup_cons.mp h1).1
      exact h2 (by rw [hd, ← hxm]; exact List.mem_map_of_mem _ hx)
    have hdmem : d ∈ st.devices := by rw [e]; simp
    refine ⟨?_, ?_, ?_⟩
    · simpa only [List.map_append, List.map_cons, merged_mac] using hnd
    · intro r hr
      simp only [List.mem_append, List.mem_cons] at hr
      have old : ∀ r ∈ st.devices, r.mac ≠ n.mac →
          (∀ c ∈ seen ++ [n], c.mac = r.mac → c.rssi ≤ r.rssi) ∧
            ∃ c ∈ seen ++ [n], c.mac = r.mac ∧ c.rssi = r.rssi := by
        intro r hr hrm
        obtain ⟨hb, c, hc, hcm, hcr⟩ := inv.best r hr
        refine ⟨?_, c, List.mem_append_left _ hc, hcm, hcr⟩
        intro c2 hc2 hc2m
        rcases List.mem_append.mp hc2 with hc2 | hc2
        · exact hb c2 hc2 hc2m
        · rw [List.mem_singleton] at hc2; subst hc2; exact absurd hc2m.symm hrm
      rcases hr with hr | hr | hr
      · exact old r (by rw [e]; simp [hr]) (hpre r hr)
      · subst hr
        obtain ⟨hb, c, hc, hcm, hcr⟩ := inv.best d hdmem
        rw [merged_mac, merged_rssi]
        refine ⟨?_, ?_⟩
        · intro c2 hc2 hc2m
          rcases List.mem_append.mp hc2 with hc2 | hc2
          · exact le_trans (hb c2 hc2 hc2m) (le_max_left _ _)
          · rw [List.mem_singleton] at hc2; subst hc2; exact le_max_right _ _
        · by_cases hlt : d.rssi < n.rssi
          · exact ⟨n, by simp, hd.symm, by rw [max_eq_right (le_of_lt hlt)]⟩
          · exact ⟨c, List.mem_append_left _ hc, hcm,
              by rw [max_eq_left (not_lt.mp hlt)]; exact hcr⟩
      · exact old r (by rw [e]; simp [hr]) (hpost r hr)
    · intro c hc
      have hm : ∃ r ∈ pre ++ merged d n :: post, r.mac = n.mac :=
        ⟨merged d n, by simp, by rw [merged_mac, hd]⟩
      rcases List.mem_append.mp hc with hc | hc
      · obtain ⟨r, hr, hrm⟩ := inv.present c hc
        by_cases hcn : c.mac = n.mac
        · obtain ⟨r2, hr2, hr2m⟩ := hm
          exact ⟨r2, hr2, by rw [hr2m, hcn]⟩
        · rw [e] at hr
          simp only [List.mem_append, List.mem_cons] at hr
          rcases hr with hr | hr | hr
          · exact ⟨r, by simp [hr], hrm⟩
          · subst hr; exact absurd (hrm.symm.trans hd) hcn
          · exact ⟨r, by simp [hr], hrm⟩
      · rw [List.mem_singleton] at hc; subst hc; exact hm
  · have ha : ∀ d ∈ st.devices, d.mac ≠ n.mac := fun d hd hm => hp ⟨d, hd, hm⟩
    obtain ⟨_, hdev⟩ := add_absent st n ha
    refine ⟨?_, ?_, ?_⟩
    · rw [hdev, List.map_append, List.map_cons, List.map_nil]
      refine List.Nodup.append inv.nodup (List.nodup_singleton _) ?_
      intro m hm1 hm2
      rw [List.mem_singleton] at hm2
      obtain ⟨d, hd, hdm⟩ := List.mem_map.mp hm1
      exact ha d hd (hdm.trans hm2)
    · intro r hr0
      rw [hdev] at hr0
      rcases List.mem_append.mp hr0 with hr | hr
      · clear hr0
        obtain ⟨hb, c, hc, hcm, hcr⟩ := inv.best r hr
        refine ⟨?_, c, List.mem_append_left _ hc, hcm, hcr⟩
        intro c2 hc2 hc2m
        rcases List.mem_append.mp hc2 with hc2 | hc2
        · exact hb c2 hc2 hc2m
        · rw [List.mem_singleton] at hc2; subst hc2; exact absurd hc2m.symm (ha r hr)
      · rw [List.mem_singleton] at hr; subst hr
        refine ⟨?_, r, by simp, rfl, rfl⟩
        intro c2 hc2 hc2m
        rcases List.mem_append.mp hc2 with hc2 | hc2
        · obtain ⟨r2, hr2, hr2m⟩ := inv.present c2 hc2
          exact absurd (hr2m.trans hc2m) (ha r2 hr2)
        · rw [List.mem_singleton] at hc2; subst hc2; exact le_refl _
    · intro c hc
      rw [hdev]
      rcases List.mem_append.mp hc with hc | hc
      · obtain ⟨r, hr, hrm⟩ := inv.present c hc
        exact ⟨r, List.mem_append_left _ hr, hrm⟩
      · rw [List.mem_singleton] at hc; subst hc
        exact ⟨c, by simp, rfl⟩

theorem add_all_snoc (st : client_state) (l : List ble_device_t) (n : ble_device_t) :
    add_all st (l ++ [n]) = (add_or_update_device true (add_all st l) n).2 := by
  simp [add_all, List.foldl_append]

theorem agg_inv_add_all (calls : List ble_device_t) :
    agg_inv (add_all init_device_array calls) calls := by
  induction calls using List.reverseRecOn with
  | nil => exact agg_inv_init
  | append_singleton l n ih => rw [add_all_snoc]; exact agg_inv_step _ _ _ ih

/-! ### Claims about the consumer's aggregator -/

/-- C2: after any sequence of `add_or_update_device` calls from the empty
array (growth succeeding), every supplied address has a stored record, and the
stored strength of that address is the maximum of the strengths supplied for
it: no supplied value exceeds it and one of them equals it.  In particular,
when no later value for the address is stronger than the first call's value,
the stored strength is the first value. -/
theorem add_or_update_rssi_max (calls : List ble_device_t) (d : ble_device_t)
    (hd : d ∈ calls) :
    (∃ r ∈ (add_all init_device_array calls).devices, r.mac = d.mac) ∧
    (∀ r ∈ (add_all init_device_array calls).devices, r.mac = d.mac →
      (∀ c ∈ calls, c.mac = d.mac → c.rssi ≤ r.rssi) ∧
        ∃ c ∈ calls, c.mac = d.mac ∧ c.rssi = r.rssi) ∧
    (∀ first rest, calls = first :: rest → first.mac = d.mac →
      (∀ c ∈ rest, c.mac = d.mac → c.rssi ≤ first.rssi) →
      ∀ r ∈ (add_all init_device_array calls).devices, r.mac = d.mac →
        r.rssi = first.rssi) := by
  have inv := agg_inv_add_all calls
  have main : ∀ r ∈ (add_all init_device_array calls).devices, r.mac = d.mac →
      (∀ c ∈ calls, c.mac = d.mac → c.rssi ≤ r.rssi) ∧
        ∃ c ∈ calls, c.mac = d.mac ∧ c.rssi = r.rssi := by
    intro r hr hrm
    obtain ⟨hb, c, hc, hcm, hcr⟩ := inv.best r hr
    exact ⟨fun c2 hc2 hc2m => hb c2 hc2 (hc2m.trans hrm.symm), c, hc, hcm.trans hrm, hcr⟩
  refine ⟨inv.present d hd, main, ?_⟩
  intro first rest e hfm hrest r hr hrm
  obtain ⟨hub, c, hc, hcm, hcr⟩ := main r hr hrm
  have h1 : first.rssi ≤ r.rssi := hub first (by rw [e]; simp) hfm
  have h2 : c.rssi ≤ first.rssi := by
    rw [e] at hc
    rcases List.mem_cons.mp hc with rfl | hc
    · exact le_refl _
    · exact hrest c hc hcm
  omega

theorem add_or_update_rssi_max_witness :
    (⟨"AA:BB:CC:DD:EE:01".toList, -80, []⟩ : ble_device_t) ∈ sample_calls ∧
    ∃ r ∈ (add_all init_device_array sample_calls).devices,
      r.mac = "AA:BB:CC:DD:EE:01".toList :=
  ⟨by decide, (add_or_update_rssi_max sample_calls ⟨"AA:BB:CC:DD:EE:01".toList, -80, []⟩
    (by decide)).1⟩

/-- C3: for every address and every non-empty name `n` (that fits the name
buffer), the calls `(addr, -80, "")` then `(addr, -70, n)` from the empty
aggregator leave exactly one record, with name `n`; the reverse order leaves
the name `n` too. -/
theorem name_adoption (addr n : List Char) (hn : n ≠ []) (hlen : n.length ≤ MAX_NAME_LEN - 1) :
    (add_all init_device_array [⟨addr, -80, []⟩, ⟨addr, -70, n⟩]).devices =
      [⟨addr, -70, n⟩] ∧
    (add_all init_device_array [⟨addr, -70, n⟩, ⟨addr, -80, []⟩]).devices =
      [⟨addr, -70, n⟩] := by
  have ht : n.take (MAX_NAME_LEN - 1) = n := List.take_of_length_le hlen
  constructor
  · simp [add_all, add_or_update_device, update_existing, resize_device_array,
      init_device_array, MAX_DEVICES_INITIAL, hn, ht]
  · simp [add_all, add_or_update_device, update_existing, resize_device_array,
      init_device_array, MAX_DEVICES_INITIAL]

theorem name_adoption_witness :
    "Sensor".toList ≠ [] ∧
    (add_all init_device_array [⟨"AA:BB:CC:DD:EE:01".toList, -80, []⟩,
        ⟨"AA:BB:CC:DD:EE:01".toList, -70, "Sensor".toList⟩]).devices =
      [⟨"AA:BB:CC:DD:EE:01".toList, -70, "Sensor".toList⟩] :=
  ⟨by decide, (name_adoption "AA:BB:CC:DD:EE:01".toList "Sensor".toList (by decide)
    (by decide)).1⟩

/-! ### Round trip between the producer's line and the consumer's parser -/

set_option maxRecDepth 100000 in
theorem fmt_02X_facts : ∀ b < 256, (fmt_02X b).length = 2 ∧ ',' ∉ fmt_02X b := by decide

set_option maxRecDepth 100000 in
theorem fmt_d_facts : ∀ n : Nat, n < 256 →
    (atoi (fmt_d ((n : Int) - 128)) = (n : Int) - 128 ∧ ',' ∉ fmt_d ((n : Int) - 128) ∧
      fmt_d ((n : Int) - 128) ≠ [] ∧ (fmt_d ((n : Int) - 128)).length ≤ 4) := by decide

theorem fmt_d_int8 (v : Int) (h1 : -128 ≤ v) (h2 : v ≤ 127) :
    atoi (fmt_d v) = v ∧ ',' ∉ fmt_d v ∧ fmt_d v ≠ [] ∧ (fmt_d v).length ≤ 4 := by
  have h := fmt_d_facts (v + 128).toNat (by omega)
  have e : (((v + 128).toNat : Nat) : Int) - 128 = v := by
    rw [Int.toNat_of_nonneg (by omega)]; omega
  rw [e] at h
  exact h

set_option maxRecDepth 100000 in
theorem ofNat_comma : ∀ b < 128, Char.ofNat b = ',' → b = 44 := by decide

theorem print_mac_facts (bda : List Nat) (hlen : bda.length = 6) (hb : ∀ b ∈ bda, b < 256) :
    (print_mac bda).length = 17 ∧ ',' ∉ print_mac bda := by
  match bda, hlen with
  | [b0, b1, b2, b3, b4, b5], _ =>
    have h0 := fmt_02X_facts b0 (hb b0 (by simp))
    have h1 := fmt_02X_facts b1 (hb b1 (by simp))
    have h2 := fmt_02X_facts b2 (hb b2 (by simp))
    have h3 := fmt_02X_facts b3 (hb b3 (by simp))
    have h4 := fmt_02X_facts b4 (hb b4 (by simp))
    have h5 := fmt_02X_facts b5 (hb b5 (by simp))
    simp [print_mac, print_mac_loop, h0, h1, h2, h3, h4, h5]

set_option maxRecDepth 100000 in
theorem fmt_02X_octet : ∀ b < 256, fmt_02X b = octet_text b := by decide

/-- The address loop prints the canonical text of a six-byte address. -/
theorem print_mac_canonical (bda : List Nat) (hlen : bda.length = 6)
    (hb : ∀ b ∈ bda, b < 256) : print_mac bda = canonical_mac bda := by
  match bda, hlen with
  | [b0, b1, b2, b3, b4, b5], _ =>
    have h0 := fmt_02X_octet b0 (hb b0 (by simp))
    have h1 := fmt_02X_octet b1 (hb b1 (by simp))
    have h2 := fmt_02X_octet b2 (hb b2 (by simp))
    have h3 := fmt_02X_octet b3 (hb b3 (by simp))
    have h4 := fmt_02X_octet b4 (hb b4 (by simp))
    have h5 := fmt_02X_octet b5 (hb b5 (by simp))
    simp [print_mac, print_mac_loop, canonical_mac, List.intercalate, List.intersperse,
      h0, h1, h2, h3, h4, h5, octet_text]

/-- Parsing the printed line gives back the printed address text, the signal
strength and the name. -/
theorem parse_print_raw (device : scanned_device_t) (dev0 : ble_device_t)
    (hbda : device.bda.length = 6) (hbytes : ∀ b ∈ device.bda, b < 256)
    (hlo : -128 ≤ device.rssi) (hhi : device.rssi ≤ 127)
    (hlen : device.name.length ≤ 31)
    (hname : ∀ b ∈ device.name, 32 ≤ b ∧ b ≤ 126 ∧ b ≠ 44) :
    parse_device_line (print_device_line device) dev0 =
      (1, { mac := print_mac device.bda, rssi := device.rssi,
            name := if device.has_name then device.name.map Char.ofNat else [] }) := by
  obtain ⟨hm17, hmc⟩ := print_mac_facts device.bda hbda hbytes
  obtain ⟨hval, hdc, hdne, hdl⟩ := fmt_d_int8 device.rssi hlo hhi
  have hmne : print_mac device.bda ≠ [] := by
    intro h; rw [h] at hm17; simp at hm17
  generalize hN : (if device.has_name then device.name.map Char.ofNat else []) = N
  have hNl : N.length ≤ 31 := by
    rw [← hN]; split_ifs
    · simpa using hlen
    · simp
  have hNc : ',' ∉ N := by
    rw [← hN]; split_ifs
    · intro h
      obtain ⟨b, hb, hbc⟩ := List.mem_map.mp h
      obtain ⟨_, h126, h44⟩ := hname b hb
      exact h44 (ofNat_comma b (by omega) hbc)
    · simp
  have hline : print_device_line device =
      "DEV,".toList ++ (print_mac device.bda ++ ',' :: (fmt_d device.rssi ++ ',' :: N)) := by
    simp [print_device_line, hN]
  have hxl : (print_mac device.bda ++ ',' :: (fmt_d device.rssi ++ ',' :: N)).length ≤ 255 := by
    simp only [List.length_append, List.length_cons]; omega
  obtain ⟨hf, hr⟩ := parse_loop_three (print_mac device.bda) (fmt_d device.rssi) N dev0
    hmne hmc hdne hdc hNc
  rw [hline, parse_device_line_after_tag _ _ hxl, hr, if_pos hf, hval,
    List.take_of_length_le (by omega : (print_mac device.bda).length ≤ 17),
    List.take_of_length_le (by simp only [MAX_NAME_LEN]; omega : N.length ≤ MAX_NAME_LEN - 1)]

/-- C4: for every six-byte address, every signal strength in the `int8_t`
range and every name of at most 31 printable ASCII bytes other than comma (or
no name), the line the producer prints for the record is `DEV,` + the
canonical address text (six uppercase two-digit hexadecimal octets joined by
colons) + `,` + the decimal signal strength + `,` + the name, and
`parse_device_line` applied to it succeeds and yields that 17-character
canonical address text of the record's bytes, the record's signal strength
and the record's name. -/
theorem parse_print_roundtrip (device : scanned_device_t) (dev0 : ble_device_t)
    (hbda : device.bda.length = 6) (hbytes : ∀ b ∈ device.bda, b < 256)
    (hlo : -128 ≤ device.rssi) (hhi : device.rssi ≤ 127)
    (hlen : device.name.length ≤ 31)
    (hname : ∀ b ∈ device.name, 32 ≤ b ∧ b ≤ 126 ∧ b ≠ 44) :
    parse_device_line (print_device_line device) dev0 =
      (1, { mac := canonical_mac device.bda, rssi := device.rssi,
            name := if device.has_name then device.name.map Char.ofNat else [] }) ∧
    (canonical_mac device.bda).length = 17 ∧
    print_device_line device =
      "DEV,".toList ++ canonical_mac device.bda ++ [','] ++ fmt_d device.rssi ++ [','] ++
        (if device.has_name then device.name.map Char.ofNat else []) := by
  have hcan := print_mac_canonical device.bda hbda hbytes
  refine ⟨?_, ?_, by simp [print_device_line, hcan]⟩
  all_goals rw [← hcan]
  · exact parse_print_raw device dev0 hbda hbytes hlo hhi hlen hname
  · exact (print_mac_facts device.bda hbda hbytes).1

theorem parse_print_roundtrip_witness :
    parse_device_line (print_device_line sample_record) ⟨[], 0, []⟩ =
      (1, ⟨"AA:BB:CC:DD:EE:01".toList, -65, "Tag1".toList⟩) :=
  (parse_print_roundtrip sample_record ⟨[], 0, []⟩ (by decide) (by decide) (by decide)
    (by decide) (by decide) (by decide)).1

/-! ### Ordering -/

/-- C5 (failing input): the parser produces the strengths `INT_MAX` and
`INT_MIN` from two device lines; for them the subtraction in
`compare_devices` leaves the `int` range: the first record is the stronger
one, yet the result is positive, which orders it after the weaker one. -/
theorem compare_devices_overflow :
    (parse_device_line "DEV,AA:BB:CC:DD:EE:01,2147483647".toList ⟨[], 0, []⟩).2.rssi =
      2147483647 ∧
    (parse_device_line "DEV,AA:BB:CC:DD:EE:02,-2147483648".toList ⟨[], 0, []⟩).2.rssi =
      -2147483648 ∧
    (-2147483648 : Int) < 2147483647 ∧
    compare_devices ⟨"AA:BB:CC:DD:EE:01".toList, 2147483647, []⟩
      ⟨"AA:BB:CC:DD:EE:02".toList, -2147483648, []⟩ = 1 := by
  decide

/-! ### Parser -/

/-- C6 (counterexample): with an empty address field the line
`DEV,,-50,Sensor` has the shape of the claim (a = "", r = "-50",
n = "Sensor"), but the parser takes `-50` as the address and `Sensor` as the
signal strength field. -/
theorem parse_empty_address_shifts :
    parse_device_line ("DEV,".toList ++ [] ++ [','] ++ "-50".toList ++ [','] ++ "Sensor".toList)
        ⟨[], 0, []⟩ = (1, ⟨"-50".toList, 0, []⟩) ∧
    parse_device_line ("DEV,".toList ++ [] ++ [','] ++ "-50".toList ++ [','] ++ "Sensor".toList)
        ⟨[], 0, []⟩ ≠ (1, ⟨[], atoi "-50".toList, "Sensor".toList⟩) := by
  decide

/-- C6 (amended): for non-empty comma-free `a` (at most 17 characters) and
`r`, and comma-free `n` (at most 63 characters), on lines of at most 255
characters: `DEV,a,r` parses to address `a`, strength `atoi r` and the empty
name; `DEV,a,r,n` parses to address `a`, strength `atoi r` and name `n`;
when `n` is non-empty, `DEV,a,r,n,extra` parses to the same record for every
`extra`.  A line `DEV,b` with comma-free `b` is reported as a failure. -/
theorem parse_device_line_fields (a r n : List Char) (dev : ble_device_t)
    (ha : a ≠ []) (hac : ',' ∉ a) (hal : a.length ≤ 17)
    (hr : r ≠ []) (hrc : ',' ∉ r) (hnc : ',' ∉ n) (hnl : n.length ≤ 63) :
    (("DEV,".toList ++ a ++ [','] ++ r).length ≤ 255 →
      parse_device_line ("DEV,".toList ++ a ++ [','] ++ r) dev = (1, ⟨a, atoi r, []⟩)) ∧
    (("DEV,".toList ++ a ++ [','] ++ r ++ [','] ++ n).length ≤ 255 →
      parse_device_line ("DEV,".toList ++ a ++ [','] ++ r ++ [','] ++ n) dev =
        (1, ⟨a, atoi r, n⟩)) ∧
    (∀ extra : List Char, n ≠ [] →
      ("DEV,".toList ++ a ++ [','] ++ r ++ [','] ++ n ++ [','] ++ extra).length ≤ 255 →
      parse_device_line ("DEV,".toList ++ a ++ [','] ++ r ++ [','] ++ n ++ [','] ++ extra) dev =
        (1, ⟨a, atoi r, n⟩)) ∧
    (∀ b : List Char, ',' ∉ b → (parse_device_line ("DEV,".toList ++ b) dev).1 = 0) := by
  have hta : a.take 17 = a := List.take_of_length_le hal
  have htn : n.take (MAX_NAME_LEN - 1) = n := List.take_of_length_le hnl
  refine ⟨?_, ?_, ?_, ?_⟩
  · intro hlen
    have e : "DEV,".toList ++ a ++ [','] ++ r = "DEV,".toList ++ (a ++ ',' :: r) := by simp
    have hx : (a ++ ',' :: r).length ≤ 255 := by
      rw [e] at hlen; simp only [List.length_append] at hlen ⊢; omega
    rw [e, parse_device_line_after_tag _ _ hx, parse_loop_two a r _ ha hac hr hrc, hta]
    simp
  · intro hlen
    have e : "DEV,".toList ++ a ++ [','] ++ r ++ [','] ++ n =
        "DEV,".toList ++ (a ++ ',' :: (r ++ ',' :: n)) := by simp
    have hx : (a ++ ',' :: (r ++ ',' :: n)).length ≤ 255 := by
      rw [e] at hlen; simp only [List.length_append] at hlen ⊢; omega
    obtain ⟨hf, hres⟩ := parse_loop_three a r n dev ha hac hr hrc hnc
    rw [e, parse_device_line_after_tag _ _ hx, hres, if_pos hf, hta, htn]
  · intro extra hn hlen
    have e : "DEV,".toList ++ a ++ [','] ++ r ++ [','] ++ n ++ [','] ++ extra =
        "DEV,".toList ++ (a ++ ',' :: (r ++ ',' :: (n ++ ',' :: extra))) := by simp
    have hx : (a ++ ',' :: (r ++ ',' :: (n ++ ',' :: extra))).length ≤ 255 := by
      rw [e] at hlen; simp only [List.length_append] at hlen ⊢; omega
    rw [e, parse_device_line_after_tag _ _ hx, parse_loop_four a r n extra _ ha hac hr hrc hn hnc,
      hta, htn]
    simp
  · intro b hbc
    have h1 : ("DEV,".toList ++ b).take 4 = "DEV,".toList := by
      simp [List.take_append_eq_append_take]
    have h2 : ("DEV,".toList ++ b).drop 4 = b := by
      simp [List.drop_append_eq_append_drop]
    have hc : ',' ∉ b.take 255 := fun h => hbc (List.mem_of_mem_take h)
    have hlt := parse_loop_one (b.take 255) { dev with name := [] } hc
    simp only [parse_device_line, h1, h2, ne_eq, not_true_eq_false, if_false]
    rw [if_neg (by omega)]

theorem parse_device_line_fields_witness :
    parse_device_line ("DEV,".toList ++ "AA:BB:CC:DD:EE:01".toList ++ [','] ++ "-82".toList)
      ⟨[], 0, []⟩ = (1, ⟨"AA:BB:CC:DD:EE:01".toList, atoi "-82".toList, []⟩) :=
  (parse_device_line_fields "AA:BB:CC:DD:EE:01".toList "-82".toList "Tag1".toList ⟨[], 0, []⟩
    (by decide) (by decide) (by decide) (by decide) (by decide) (by decide) (by decide)).1
    (by decide)

/-- C7: for every line that does not begin with the four characters `DEV,`,
`parse_device_line` returns 0 and leaves the caller's record as it was. -/
theorem parse_device_line_not_device (line : List Char) (device : ble_device_t)
    (h : ¬ "DEV,".toList <+: line) :
    parse_device_line line device = (0, device) := by
  have h1 : line.take 4 ≠ "DEV,".toList := by
    intro e
    apply h
    rw [← e]
    exact List.take_prefix 4 line
  simp only [parse_device_line, h1, ne_eq, not_false_eq_true, if_true]

theorem parse_device_line_not_device_witness :
    parse_device_line "HELLO WORLD".toList ⟨"x".toList, 5, "y".toList⟩ =
      (0, ⟨"x".toList, 5, "y".toList⟩) :=
  parse_device_line_not_device "HELLO WORLD".toList ⟨"x".toList, 5, "y".toList⟩ (by decide)

theorem int_wrap_id (v : Int) (h1 : -2 ^ 31 ≤ v) (h2 : v ≤ 2 ^ 31 - 1) : int_wrap v = v := by
  unfold int_wrap
  norm_num at h1 h2 ⊢
  omega

theorem isdigit_not_special (c : Char) (h : isdigit c = true) :
    c ≠ '-' ∧ c ≠ '+' ∧ isspace c = false := by
  refine ⟨?_, ?_, ?_⟩
  · rintro rfl; revert h; decide
  · rintro rfl; revert h; decide
  · simp only [isdigit, Bool.and_eq_true, decide_eq_true_eq] at h
    simp only [isspace, Bool.or_eq_false_iff, Bool.and_eq_false_iff, decide_eq_false_iff_not]
    omega

theorem atoi_digits_run (ds rest : List Char) (hds : ∀ c ∈ ds, isdigit c = true)
    (hrest : ∀ c, rest.head? = some c → isdigit c = false) (acc : Int) :
    atoi_digits acc (ds ++ rest) =
      ds.foldl (fun v c => v * 10 + ((c.toNat : Int) - 48)) acc := by
  induction ds generalizing acc with
  | nil =>
    cases rest with
    | nil => simp [atoi_digits]
    | cons c t => simp [atoi_digits, hrest c rfl]
  | cons d ds ih =>
    have hd : isdigit d = true := hds d (List.mem_cons_self _ _)
    have hds2 : ∀ c ∈ ds, isdigit c = true := fun c hc => hds c (List.mem_cons_of_mem _ hc)
    simp only [List.cons_append, atoi_digits, hd, if_true, List.foldl_cons]
    exact ih hds2 _

/-- What `atoi` returns on an optional sign, a non-empty run of digits and a
remainder that does not start with a digit. -/
theorem atoi_leading_number (sign ds rest : List Char)
    (hs : sign = [] ∨ sign = ['-'] ∨ sign = ['+']) (hne : ds ≠ [])
    (hds : ∀ c ∈ ds, isdigit c = true)
    (hrest : ∀ c, rest.head? = some c → isdigit c = false) :
    atoi (sign ++ ds ++ rest) = int_wrap (signed_value sign ds) := by
  have hrun := atoi_digits_run ds rest hds hrest 0
  rcases hs with rfl | rfl | rfl
  · cases ds with
    | nil => exact absurd rfl hne
    | cons d t =>
      obtain ⟨h1, h2, h3⟩ := isdigit_not_special d (hds d (List.mem_cons_self _ _))
      simp only [List.nil_append, List.cons_append] at hrun ⊢
      simp only [atoi, List.dropWhile_cons, h3, h1, h2, if_false, hrun, signed_value,
        dec_value, Bool.false_eq_true]
      simp
  · have hsp : isspace '-' = false := by decide
    simp only [atoi, List.cons_append, List.nil_append, List.append_assoc, List.dropWhile_cons,
      hsp, Bool.false_eq_true, if_false, if_true, hrun, signed_value, dec_value]
  · have hsp : isspace '+' = false := by decide
    have hne2 : ('+' : Char) ≠ '-' := by decide
    simp only [atoi, List.cons_append, List.nil_append, List.append_assoc, List.dropWhile_cons,
      hsp, Bool.false_eq_true, if_false, if_true, hrun, signed_value, dec_value, hne2]
    simp

/-- What `atoi` returns when no digit follows the optional sign. -/
theorem atoi_no_digits (sign rest : List Char)
    (hs : sign = [] ∨ sign = ['-'] ∨ sign = ['+'])
    (hrest : ∀ c, rest.head? = some c → isdigit c = false)
    (hplain : sign = [] → ∀ c, rest.head? = some c → c ≠ '-' ∧ c ≠ '+' ∧ isspace c = false) :
    atoi (sign ++ rest) = 0 := by
  have hrun := atoi_digits_run [] rest (by simp) hrest 0
  simp only [List.nil_append, List.foldl_nil] at hrun
  rcases hs with rfl | rfl | rfl
  · cases rest with
    | nil => simp [atoi]
    | cons c t =>
      obtain ⟨h1, h2, h3⟩ := hplain rfl c rfl
      simp only [List.nil_append, atoi, List.dropWhile_cons, h3, h1, h2, if_false, hrun,
        Bool.false_eq_true]
      decide
  · have hsp : isspace '-' = false := by decide
    simp only [atoi, List.cons_append, List.nil_append, List.dropWhile_cons,
      hsp, Bool.false_eq_true, if_false, if_true, hrun]
    decide
  · have hsp : isspace '+' = false := by decide
    have hne2 : ('+' : Char) ≠ '-' := by decide
    simp only [atoi, List.cons_append, List.nil_append, List.dropWhile_cons,
      hsp, Bool.false_eq_true, if_false, if_true, hrun, hne2]
    decide

/-- The signal strength field of a device line with at least two fields. -/
theorem parse_loop_rssi (a f tail : List Char) (d : ble_device_t)
    (ha : a ≠ []) (hac : ',' ∉ a) (hf : f ≠ []) (hfc : ',' ∉ f)
    (htail : tail = [] ∨ ∃ m, tail = ',' :: m) :
    (parse_loop 3 (strtok (a ++ ',' :: (f ++ tail))) 0 d).1 ≥ 2 ∧
    (parse_loop 3 (strtok (a ++ ',' :: (f ++ tail))) 0 d).2.rssi = atoi f := by
  rcases htail with rfl | ⟨m, rfl⟩
  · rw [List.append_nil, parse_loop_two a f d ha hac hf hfc]
    simp
  · rw [strtok_field a _ ha hac]
    have h3 := parse_loop_third (strtok m) { d with mac := a.take 17, rssi := atoi f }
    simp only [parse_loop, strtok_field f m hf hfc]
    simpa using ⟨h3.1, h3.2.1⟩

/-- C8 (counterexample): the malformed numeric field `12abc` does not parse
to 0; the parsed signal strength is 12. -/
theorem parse_rssi_leading_number :
    (parse_device_line "DEV,AA:BB:CC:DD:EE:01,12abc,Tag1".toList ⟨[], 0, []⟩).1 = 1 ∧
    (parse_device_line "DEV,AA:BB:CC:DD:EE:01,12abc,Tag1".toList ⟨[], 0, []⟩).2.rssi = 12 ∧
    (parse_device_line "DEV,AA:BB:CC:DD:EE:01,12abc,Tag1".toList ⟨[], 0, []⟩).2.rssi ≠ 0 := by
  decide

/-- C8 (amended): for every device line `DEV,<address>,<field>` or
`DEV,<address>,<field>,...` of at most 255 characters with non-empty
comma-free address and field, parsing succeeds and the signal strength is
`atoi` of the field: when the field is an optional sign and one or more
digits, possibly followed by text that does not start with a digit, it is the
signed value of the digits (if that is within the `int` range); when no digit
follows the optional sign (and a field without sign does not start with a
sign or white space), it is 0. -/
theorem parse_rssi_lenient (a f tail : List Char) (dev : ble_device_t)
    (ha : a ≠ []) (hac : ',' ∉ a) (hf : f ≠ []) (hfc : ',' ∉ f)
    (htail : tail = [] ∨ ∃ m, tail = ',' :: m)
    (hlen : ("DEV,".toList ++ a ++ [','] ++ f ++ tail).length ≤ 255) :
    (parse_device_line ("DEV,".toList ++ a ++ [','] ++ f ++ tail) dev).1 = 1 ∧
    (parse_device_line ("DEV,".toList ++ a ++ [','] ++ f ++ tail) dev).2.rssi = atoi f ∧
    (∀ sign ds rest : List Char, f = sign ++ ds ++ rest →
      (sign = [] ∨ sign = ['-'] ∨ sign = ['+']) → ds ≠ [] →
      (∀ c ∈ ds, isdigit c = true) → (∀ c, rest.head? = some c → isdigit c = false) →
      -2 ^ 31 ≤ signed_value sign ds → signed_value sign ds ≤ 2 ^ 31 - 1 →
      (parse_device_line ("DEV,".toList ++ a ++ [','] ++ f ++ tail) dev).2.rssi =
        signed_value sign ds) ∧
    (∀ sign rest : List Char, f = sign ++ rest →
      (sign = [] ∨ sign = ['-'] ∨ sign = ['+']) →
      (∀ c, rest.head? = some c → isdigit c = false) →
      (sign = [] → ∀ c, rest.head? = some c → c ≠ '-' ∧ c ≠ '+' ∧ isspace c = false) →
      (parse_device_line ("DEV,".toList ++ a ++ [','] ++ f ++ tail) dev).2.rssi = 0) := by
  have e : "DEV,".toList ++ a ++ [','] ++ f ++ tail =
      "DEV,".toList ++ (a ++ ',' :: (f ++ tail)) := by simp
  have hx : (a ++ ',' :: (f ++ tail)).length ≤ 255 := by
    rw [e] at hlen; simp only [List.length_append] at hlen ⊢; omega
  obtain ⟨h2, hrssi⟩ := parse_loop_rssi a f tail { dev with name := [] } ha hac hf hfc htail
  have hret : (parse_device_line ("DEV,".toList ++ a ++ [','] ++ f ++ tail) dev).1 = 1 := by
    rw [e, parse_device_line_after_tag _ _ hx, if_pos h2]
  have hval : (parse_device_line ("DEV,".toList ++ a ++ [','] ++ f ++ tail) dev).2.rssi =
      atoi f := by
    rw [e, parse_device_line_after_tag _ _ hx]; exact hrssi
  refine ⟨hret, hval, ?_, ?_⟩
  · intro sign ds rest hfe hs hne hds hrest hlo hhi
    rw [hval, hfe, atoi_leading_number sign ds rest hs hne hds hrest, int_wrap_id _ hlo hhi]
  · intro sign rest hfe hs hrest hplain
    rw [hval, hfe, atoi_no_digits sign rest hs hrest hplain]

theorem parse_rssi_lenient_witness :
    (parse_device_line ("DEV,".toList ++ "AA:BB:CC:DD:EE:01".toList ++ [','] ++ "-82".toList ++
      ",Tag1".toList) ⟨[], 0, []⟩).1 = 1 ∧
    (parse_device_line ("DEV,".toList ++ "AA:BB:CC:DD:EE:01".toList ++ [','] ++ "-82".toList ++
      ",Tag1".toList) ⟨[], 0, []⟩).2.rssi = atoi "-82".toList :=
  ⟨(parse_rssi_lenient "AA:BB:CC:DD:EE:01".toList "-82".toList ",Tag1".toList ⟨[], 0, []⟩
      (by decide) (by decide) (by decide) (by decide) (Or.inr ⟨"Tag1".toList, rfl⟩)
      (by decide)).1,
   (parse_rssi_lenient "AA:BB:CC:DD:EE:01".toList "-82".toList ",Tag1".toList ⟨[], 0, []⟩
      (by decide) (by decide) (by decide) (by decide) (Or.inr ⟨"Tag1".toList, rfl⟩)
      (by decide)).2.1⟩

/-! ### Result of `add_or_update_device` and address uniqueness -/

/-- C9 (counterexample): a call that merges a stronger sighting (the stored
strength changes) and a call that ignores a weaker one (no change) return the
same value 0, so "merged" and "ignored" are not distinct results. -/
theorem merged_and_ignored_return_same :
    add_or_update_device true ⟨[⟨"AA:BB:CC:DD:EE:01".toList, -80, []⟩], 10⟩
        ⟨"AA:BB:CC:DD:EE:01".toList, -70, []⟩ =
      (0, ⟨[⟨"AA:BB:CC:DD:EE:01".toList, -70, []⟩], 10⟩) ∧
    add_or_update_device true ⟨[⟨"AA:BB:CC:DD:EE:01".toList, -80, []⟩], 10⟩
        ⟨"AA:BB:CC:DD:EE:01".toList, -90, []⟩ =
      (0, ⟨[⟨"AA:BB:CC:DD:EE:01".toList, -80, []⟩], 10⟩) := by
  decide

/-- C9 (amended): `add_or_update_device` returns 1 exactly when the address
was not present (a new record is appended, growth succeeding) and 0 when the
address was present; in that case the first record with the address gets the
new strength (and the new name if it had none) when the new strength is
strictly stronger, and nothing changes when it is not. -/
theorem add_or_update_result (st : client_state) (n : ble_device_t) :
    ((add_or_update_device true st n).1 = 1 ↔ ∀ d ∈ st.devices, d.mac ≠ n.mac) ∧
    ((∀ d ∈ st.devices, d.mac ≠ n.mac) →
      (add_or_update_device true st n).2.devices = st.devices ++ [n]) ∧
    (∀ (ok : Bool) (pre post : List ble_device_t) (d : ble_device_t),
      st.devices = pre ++ d :: post → (∀ x ∈ pre, x.mac ≠ n.mac) → d.mac = n.mac →
      (add_or_update_device ok st n).1 = 0 ∧
      (n.rssi > d.rssi →
        (add_or_update_device ok st n).2.devices =
          pre ++ { d with rssi := n.rssi,
                          name := if n.name ≠ [] ∧ d.name = [] then
                            n.name.take (MAX_NAME_LEN - 1) else d.name } :: post) ∧
      (¬ n.rssi > d.rssi → (add_or_update_device ok st n).2 = st)) := by
  have hpres : ∀ (ok : Bool) (pre post : List ble_device_t) (d : ble_device_t),
      st.devices = pre ++ d :: post → (∀ x ∈ pre, x.mac ≠ n.mac) → d.mac = n.mac →
      (add_or_update_device ok st n).1 = 0 ∧
      (n.rssi > d.rssi →
        (add_or_update_device ok st n).2.devices =
          pre ++ { d with rssi := n.rssi,
                          name := if n.name ≠ [] ∧ d.name = [] then
                            n.name.take (MAX_NAME_LEN - 1) else d.name } :: post) ∧
      (¬ n.rssi > d.rssi → (add_or_update_device ok st n).2 = st) := by
    intro ok pre post d e hpre hd
    rw [add_present ok st n d pre post e hpre hd]
    refine ⟨rfl, ?_, ?_⟩
    · intro hgt
      simp only [merged, hgt, if_true]
      split_ifs <;> rfl
    · intro hle
      simp only [merged, hle, if_false]
      cases st
      simp only at e
      simp [e]
  refine ⟨⟨?_, fun h => (add_absent st n h).1⟩, fun h => (add_absent st n h).2, hpres⟩
  intro h1 d hd hdm
  obtain ⟨pre, d2, post, e, hp, hm⟩ := exists_first_match n st.devices ⟨d, hd, hdm⟩
  have h0 := (hpres true pre post d2 e hp hm).1
  rw [h0] at h1
  exact absurd h1 (by decide)

theorem add_or_update_result_witness :
    (add_or_update_device true ⟨[⟨"AA:BB:CC:DD:EE:01".toList, -80, []⟩], 10⟩
        ⟨"AA:BB:CC:DD:EE:02".toList, -70, []⟩).2.devices =
      [⟨"AA:BB:CC:DD:EE:01".toList, -80, []⟩] ++ [⟨"AA:BB:CC:DD:EE:02".toList, -70, []⟩] :=
  (add_or_update_result ⟨[⟨"AA:BB:CC:DD:EE:01".toList, -80, []⟩], 10⟩
    ⟨"AA:BB:CC:DD:EE:02".toList, -70, []⟩).2.1 (by decide)

/-- C10: after any sequence of `add_or_update_device` calls from the empty
array (growth succeeding) no two stored records have the same address, and
`device_count` is the number of distinct addresses supplied. -/
theorem add_or_update_unique (calls : List ble_device_t) :
    ((add_all init_device_array calls).devices.map ble_device_t.mac).Nodup ∧
    (add_all init_device_array calls).devices.length =
      (calls.map ble_device_t.mac).toFinset.card := by
  have inv := agg_inv_add_all calls
  refine ⟨inv.nodup, ?_⟩
  have hset : ((add_all init_device_array calls).devices.map ble_device_t.mac).toFinset =
      (calls.map ble_device_t.mac).toFinset := by
    ext m
    simp only [List.mem_toFinset, List.mem_map]
    constructor
    · rintro ⟨r, hr, rfl⟩
      obtain ⟨_, c, hc, hcm, _⟩ := inv.best r hr
      exact ⟨c, hc, hcm⟩
    · rintro ⟨c, hc, rfl⟩
      obtain ⟨r, hr, hrm⟩ := inv.present c hc
      exact ⟨r, hr, hrm⟩
  rw [← hset, List.toFinset_card_of_nodup inv.nodup, List.length_map]

theorem snoc_eq_split {α : Type} (l pre post : List α) (n c : α)
    (h : l ++ [n] = pre ++ c :: post) :
    (pre = l ∧ c = n ∧ post = []) ∨ (∃ q, post = q ++ [n] ∧ l = pre ++ c :: q) := by
  rcases List.eq_nil_or_concat post with rfl | ⟨q, x, rfl⟩
  · left
    have h2 : l ++ [n] = pre ++ [c] := h
    obtain ⟨h3, h4⟩ := List.append_inj' h2 rfl
    simp only [List.cons.injEq, and_true] at h4
    exact ⟨h3.symm, h4.symm, rfl⟩
  · right
    have h2 : l ++ [n] = (pre ++ c :: q) ++ [x] := by simpa using h
    obtain ⟨h3, h4⟩ := List.append_inj' h2 rfl
    simp only [List.cons.injEq, and_true] at h4
    exact ⟨q, by rw [h4, List.concat_eq_append], h3⟩

theorem earliest_setter_nil : earliest_setter_name [] [] := by
  left
  refine ⟨rfl, ?_⟩
  intro pre c post h
  cases pre <;> simp at h

/-- A call that is not name-setting leaves the earliest setter as it was. -/
theorem earliest_setter_skip (l : List ble_device_t) (n : ble_device_t) (nm : List Char)
    (h : earliest_setter_name l nm) (hn : ¬ name_setter l n) :
    earliest_setter_name (l ++ [n]) nm := by
  rcases h with ⟨hnm, hnone⟩ | ⟨pre, c, post, e, hs, hnm, hmin⟩
  · left
    refine ⟨hnm, ?_⟩
    intro pre c post e
    rcases snoc_eq_split l pre post n c e with ⟨rfl, rfl, _⟩ | ⟨q, _, e2⟩
    · exact hn
    · exact hnone pre c q e2
  · right
    refine ⟨pre, c, post ++ [n], by simp [e], hs, hnm, ?_⟩
    intro pre2 c2 post2 e2 hlt
    rcases snoc_eq_split l pre2 post2 n c2 e2 with ⟨rfl, rfl, _⟩ | ⟨q, _, e3⟩
    · exact hn
    · exact hmin pre2 c2 q e3 hlt

/-- Once a name has been set, later calls do not change the earliest setter. -/
theorem earliest_setter_keep (l : List ble_device_t) (n : ble_device_t) (nm : List Char)
    (h : earliest_setter_name l nm) (hne : nm ≠ []) :
    earliest_setter_name (l ++ [n]) nm := by
  rcases h with ⟨hnm, _⟩ | ⟨pre, c, post, e, hs, hnm, hmin⟩
  · exact absurd hnm hne
  · right
    refine ⟨pre, c, post ++ [n], by simp [e], hs, hnm, ?_⟩
    intro pre2 c2 post2 e2 hlt
    rcases snoc_eq_split l pre2 post2 n c2 e2 with ⟨rfl, rfl, _⟩ | ⟨q, _, e3⟩
    · rw [e] at hlt; simp at hlt
    · exact hmin pre2 c2 q e3 hlt

/-- The first name-setting call after an empty stored name sets the name. -/
theorem earliest_setter_set (l : List ble_device_t) (n : ble_device_t)
    (h : earliest_setter_name l []) (hn : name_setter l n) :
    earliest_setter_name (l ++ [n]) n.name := by
  right
  refine ⟨l, n, [], rfl, hn, rfl, ?_⟩
  intro pre2 c2 post2 e2 hlt
  rcases snoc_eq_split l pre2 post2 n c2 e2 with ⟨rfl, rfl, _⟩ | ⟨q, _, e3⟩
  · omega
  · rcases h with ⟨_, hnone⟩ | ⟨pre, c, post, e, hs, hnm, _⟩
    · exact hnone pre2 c2 q e3
    · exact absurd hnm.symm hs.1

theorem filter_snoc_other (seen : List ble_device_t) (n : ble_device_t) (m : List Char)
    (h : n.mac ≠ m) :
    (seen ++ [n]).filter (fun c => c.mac = m) = seen.filter (fun c => c.mac = m) := by
  simp [List.filter_append, List.filter_cons, h]

theorem filter_snoc_same (seen : List ble_device_t) (n : ble_device_t) (m : List Char)
    (h : n.mac = m) :
    (seen ++ [n]).filter (fun c => c.mac = m) = seen.filter (fun c => c.mac = m) ++ [n] := by
  simp [List.filter_append, List.filter_cons, h]

/-- The name stored by `merged` follows the earliest name-setting call. -/
theorem merged_name_setter (l : List ble_device_t) (d n : ble_device_t)
    (hn : n.name.length ≤ MAX_NAME_LEN - 1)
    (hub : ∀ c ∈ l, c.rssi ≤ d.rssi) (hatt : ∃ c ∈ l, c.rssi = d.rssi)
    (h : earliest_setter_name l d.name) :
    earliest_setter_name (l ++ [n]) (merged d n).name := by
  have ht : n.name.take (MAX_NAME_LEN - 1) = n.name := List.take_of_length_le hn
  unfold merged
  split_ifs with h1 h2
  · simp only [ht]
    rw [h2.2] at h
    exact earliest_setter_set l n h ⟨h2.1, fun p hp => lt_of_le_of_lt (hub p hp) h1⟩
  · simp only
    by_cases hd : d.name = []
    · have hnn : n.name = [] := by
        by_contra hx
        exact h2 ⟨hx, hd⟩
      exact earliest_setter_skip l n _ h (fun hs => hs.1 hnn)
    · exact earliest_setter_keep l n _ h hd
  · obtain ⟨c, hc, hcr⟩ := hatt
    refine earliest_setter_skip l n _ h ?_
    intro hs
    have := hs.2 c hc
    omega

/-- Name part of the aggregator invariant: every stored name is the name of
the earliest name-setting call among the calls for its address. -/
theorem name_inv_step (st : client_state) (seen : List ble_device_t) (n : ble_device_t)
    (inv : agg_inv st seen) (hn : n.name.length ≤ MAX_NAME_LEN - 1)
    (hname : ∀ r ∈ st.devices,
      earliest_setter_name (seen.filter (fun c => c.mac = r.mac)) r.name) :
    ∀ r ∈ (add_or_update_device true st n).2.devices,
      earliest_setter_name ((seen ++ [n]).filter (fun c => c.mac = r.mac)) r.name := by
  have other : ∀ r ∈ st.devices, r.mac ≠ n.mac →
      earliest_setter_name ((seen ++ [n]).filter (fun c => c.mac = r.mac)) r.name := by
    intro r hr hrm
    rw [filter_snoc_other seen n r.mac (fun h => hrm h.symm)]
    exact hname r hr
  by_cases hp : ∃ d ∈ st.devices, d.mac = n.mac
  · obtain ⟨pre, d, post, e, hpre, hd⟩ := exists_first_match n st.devices hp
    rw [add_present true st n d pre post e hpre hd]
    have hnd := inv.nodup
    rw [e] at hnd
    simp only [List.map_append, List.map_cons] at hnd
    have hpost : ∀ x ∈ post, x.mac ≠ n.mac := by
      intro x hx hxm
      have h1 := (List.nodup_append.mp hnd).2.1
      have h2 := (List.nodup_cons.mp h1).1
      exact h2 (by rw [hd, ← hxm]; exact List.mem_map_of_mem _ hx)
    have hdmem : d ∈ st.devices := by rw [e]; simp
    intro r hr
    simp only [List.mem_append, List.mem_cons] at hr
    rcases hr with hr | hr | hr
    · exact other r (by rw [e]; simp [hr]) (hpre r hr)
    · subst hr
      obtain ⟨hb, c, hc, hcm, hcr⟩ := inv.best d hdmem
      rw [merged_mac, filter_snoc_same seen n d.mac hd.symm]
      refine merged_name_setter _ d n hn ?_ ?_ (hname d hdmem)
      · intro c2 hc2
        obtain ⟨hc2m, hc2e⟩ := List.mem_filter.mp hc2
        exact hb c2 hc2m (by simpa using hc2e)
      · exact ⟨c, List.mem_filter.mpr ⟨hc, by simpa using hcm⟩, hcr⟩
    · exact other r (by rw [e]; simp [hr]) (hpost r hr)
  · have ha : ∀ d ∈ st.devices, d.mac ≠ n.mac := fun d hd hm => hp ⟨d, hd, hm⟩
    obtain ⟨_, hdev⟩ := add_absent st n ha
    intro r hr0
    rw [hdev] at hr0
    rcases List.mem_append.mp hr0 with hr | hr
    · exact other r hr (ha r hr)
    · rw [List.mem_singleton] at hr
      rw [hr]
      have hnil : seen.filter (fun c => c.mac = n.mac) = [] := by
        rw [List.filter_eq_nil_iff]
        intro c hc
        obtain ⟨r2, hr2, hr2m⟩ := inv.present c hc
        simpa using fun h => ha r2 hr2 (hr2m.trans h)
      rw [filter_snoc_same seen n n.mac rfl, hnil]
      by_cases hnn : n.name = []
      · have := earliest_setter_skip [] n [] earliest_setter_nil (fun hs => hs.1 hnn)
        rw [hnn]; exact this
      · exact earliest_setter_set [] n earliest_setter_nil ⟨hnn, by simp⟩

theorem name_inv_add_all (calls : List ble_device_t)
    (hlen : ∀ c ∈ calls, c.name.length ≤ MAX_NAME_LEN - 1) :
    ∀ r ∈ (add_all init_device_array calls).devices,
      earliest_setter_name (calls.filter (fun c => c.mac = r.mac)) r.name := by
  induction calls using List.reverseRecOn with
  | nil => intro r hr; simp [add_all, init_device_array] at hr
  | append_singleton l n ih =>
    rw [add_all_snoc]
    exact name_inv_step _ l n (agg_inv_add_all l) (hlen n (by simp))
      (ih (fun c hc => hlen c (List.mem_append_left _ hc)))

/-! ### Stored name -/

/-- C11 (counterexample): after the calls `(addr, -70, "")` and
`(addr, -80, "Sensor")` the stored name is still empty, although a non-empty
name was supplied: the later name comes with a weaker signal and is dropped. -/
theorem weaker_name_not_adopted :
    (add_all init_device_array [⟨"AA:BB:CC:DD:EE:01".toList, -70, []⟩,
        ⟨"AA:BB:CC:DD:EE:01".toList, -80, "Sensor".toList⟩]).devices =
      [⟨"AA:BB:CC:DD:EE:01".toList, -70, []⟩] := by
  decide

/-- C11 (amended): after any sequence of `add_or_update_device` calls from
the empty array (names fitting the name buffer), the name stored for an
address is the name carried by the earliest call for that address that has a
non-empty name and is strictly stronger than every earlier call for the
address (the first call qualifies when it has a name); it is empty when there
is no such call.  In a single call, a stored non-empty name is never
replaced. -/
theorem stored_name_policy (calls : List ble_device_t)
    (hlen : ∀ c ∈ calls, c.name.length ≤ MAX_NAME_LEN - 1) :
    (∀ r ∈ (add_all init_device_array calls).devices,
      earliest_setter_name (calls.filter (fun c => c.mac = r.mac)) r.name) ∧
    (∀ (ok : Bool) (st : client_state) (n d : ble_device_t) (pre post : List ble_device_t),
      st.devices = pre ++ d :: post → (∀ x ∈ pre, x.mac ≠ n.mac) → d.mac = n.mac →
      d.name ≠ [] →
      ∃ d2, (add_or_update_device ok st n).2.devices = pre ++ d2 :: post ∧
        d2.name = d.name) := by
  refine ⟨name_inv_add_all calls hlen, ?_⟩
  intro ok st n d pre post e hpre hd hdn
  rw [add_present ok st n d pre post e hpre hd]
  refine ⟨merged d n, rfl, ?_⟩
  unfold merged
  split_ifs with h1 h2
  · exact absurd h2.2 hdn
  · rfl
  · rfl

theorem stored_name_policy_witness :
    (∀ c ∈ sample_calls, c.name.length ≤ MAX_NAME_LEN - 1) ∧
    earliest_setter_name
      (sample_calls.filter (fun c => c.mac = "AA:BB:CC:DD:EE:01".toList)) "Tag1".toList :=
  ⟨by decide, (stored_name_policy sample_calls (by decide)).1
    ⟨"AA:BB:CC:DD:EE:01".toList, -70, "Tag1".toList⟩ (by decide)⟩

set_option maxRecDepth 100000 in
theorem lead_two_masks : ∀ l : Nat, l < 256 → Nat.land l 0xE0 = 0xC0 →
    (¬ l < 128 ∧ l ≠ 44 ∧ Nat.land l 0xF0 ≠ 0xF0 ∧ Nat.land l 0xE0 ≠ 0xE0 ∧
      Nat.land l 0xC0 = 0xC0) := by
  decide

set_option maxRecDepth 100000 in
theorem lead_three_masks : ∀ l : Nat, l < 256 → Nat.land l 0xF0 = 0xE0 →
    (¬ l < 128 ∧ l ≠ 44 ∧ Nat.land l 0xF0 ≠ 0xF0 ∧ Nat.land l 0xE0 = 0xE0) := by
  decide

set_option maxRecDepth 100000 in
theorem lead_four_masks : ∀ l : Nat, l < 256 → Nat.land l 0xF8 = 0xF0 →
    (¬ l < 128 ∧ l ≠ 44 ∧ Nat.land l 0xF0 = 0xF0) := by
  decide

theorem getD_after (pre rest : List Nat) (b d : Nat) :
    (pre ++ b :: rest).getD pre.length d = b := by
  induction pre with
  | nil => rfl
  | cons x xs ih => simpa [List.getD] using ih

theorem take_cap_full (output more : List Nat) (cap : Nat) (h1 : output.length ≤ cap)
    (h2 : ¬ output.length < cap) : (output ++ more).take cap = output := by
  have e : cap = output.length := by omega
  rw [e, List.take_left]

theorem sanitize_loop_stop (name : List Nat) (name_len max_len fuel i : Nat)
    (output : List Nat) (h : ¬ (i < name_len ∧ output.length < size_sub_one max_len)) :
    sanitize_loop name name_len max_len fuel i output = output := by
  cases fuel with
  | zero => rfl
  | succ f => rw [sanitize_loop, if_neg h]

/-- The sanitizer loop on a well-formed name: started at an element boundary
with enough fuel, it appends the reference text of the remaining elements
until the output is full. -/
theorem sanitize_loop_units (max_len : Nat) (us : List name_unit) :
    (∀ u ∈ us, unit_valid u) →
    ∀ (name pre output : List Nat) (fuel : Nat), name = pre ++ units_bytes us →
      (units_bytes us).length ≤ fuel → output.length ≤ size_sub_one max_len →
      sanitize_loop name name.length max_len fuel pre.length output =
        (output ++ reference_sanitize us).take (size_sub_one max_len) := by
  induction us with
  | nil =>
    intro _ name pre output fuel hname _ hout
    have hlen : name.length = pre.length := by rw [hname]; simp [units_bytes]
    rw [sanitize_loop_stop _ _ _ _ _ _ (by omega)]
    simp [reference_sanitize, List.take_of_length_le hout]
  | cons u us ih =>
    intro hv name pre output fuel hname hfuel hout
    have hvu : unit_valid u := hv u (List.mem_cons_self _ _)
    have hvs : ∀ x ∈ us, unit_valid x := fun x hx => hv x (List.mem_cons_of_mem _ hx)
    by_cases hfull : output.length < size_sub_one max_len
    · cases u with
      | single b =>
        have hb128 : b < 128 := hvu
        have hname2 : name = (pre ++ [b]) ++ units_bytes us := by
          rw [hname]; simp [units_bytes, unit_bytes]
        have hi : pre.length < name.length := by rw [hname2]; simp
        have hget : name.getD pre.length 0 = b := by
          rw [hname]; exact getD_after pre _ b 0
        have hlen2 : (pre ++ [b]).length = pre.length + 1 := by simp
        obtain ⟨f, rfl⟩ : ∃ f, fuel = f + 1 := by
          simp [units_bytes, unit_bytes] at hfuel
          exact ⟨fuel - 1, by omega⟩
        have hf : (units_bytes us).length ≤ f := by
          simp [units_bytes, unit_bytes] at hfuel; omega
        have step := ih hvs name (pre ++ [b])
        rw [hlen2] at step
        rw [sanitize_loop]
        simp only [hi, hfull, and_self, if_true, hget]
        by_cases hc : b = 44
        · rw [if_pos hc, step (output ++ [32]) f hname2 hf (by simp; omega)]
          simp [reference_sanitize, unit_reference, hc]
        · rw [if_neg hc, if_pos hb128]
          by_cases hp : b ≥ 32 ∧ b ≤ 126
          · rw [if_pos hp, step (output ++ [b]) f hname2 hf (by simp; omega)]
            have hp2 : 32 ≤ b ∧ b ≤ 126 := hp
            simp [reference_sanitize, unit_reference, hc, hp2]
          · rw [if_neg hp, step output f hname2 hf hout]
            have hp2 : ¬ (32 ≤ b ∧ b ≤ 126) := hp
            simp [reference_sanitize, unit_reference, hc, hp2]
      | multi l cont =>
        obtain ⟨hl, _, hshape⟩ := hvu
        have hname2 : name = (pre ++ l :: cont) ++ units_bytes us := by
          rw [hname]; simp [units_bytes, unit_bytes]
        have hi : pre.length < name.length := by rw [hname2]; simp
        have hget : name.getD pre.length 0 = l := by
          rw [hname]; exact getD_after pre _ l 0
        have hlen2 : (pre ++ l :: cont).length = pre.length + cont.length + 1 := by
          simp; omega
        obtain ⟨f, rfl⟩ : ∃ f, fuel = f + 1 := by
          simp [units_bytes, unit_bytes] at hfuel
          exact ⟨fuel - 1, by omega⟩
        have hf : (units_bytes us).length ≤ f := by
          simp [units_bytes, unit_bytes] at hfuel; omega
        have step := ih hvs name (pre ++ l :: cont) output f hname2 hf hout
        rw [hlen2] at step
        have href : reference_sanitize (name_unit.multi l cont :: us) =
            reference_sanitize us := by simp [reference_sanitize, unit_reference]
        rw [sanitize_loop, href]
        simp only [hi, hfull, and_self, if_true, hget]
        rcases hshape with ⟨hm, hk⟩ | ⟨hm, hk⟩ | ⟨hm, hk⟩
        · obtain ⟨h1, h2, h3, h4, h5⟩ := lead_two_masks l hl hm
          rw [hk] at step
          rw [if_neg h2, if_neg h1, if_neg h3, if_neg h4, if_pos h5]
          exact step
        · obtain ⟨h1, h2, h3, h4⟩ := lead_three_masks l hl hm
          rw [hk] at step
          rw [if_neg h2, if_neg h1, if_neg h3, if_pos h4]
          exact step
        · obtain ⟨h1, h2, h3⟩ := lead_four_masks l hl hm
          rw [hk] at step
          rw [if_neg h2, if_neg h1, if_pos h3]
          exact step
    · rw [sanitize_loop_stop _ _ _ _ _ _ (fun h => hfull h.2)]
      exact (take_cap_full output _ _ hout hfull).symm

/-! ### Sanitizer against its reference definition -/

/-- C12: for every well-formed name (a concatenation of bytes below 128 and
complete multi-byte sequences) and every `max_len >= 1` (a `size_t`),
`sanitize_device_name` writes the first `max_len - 1` bytes of the reference
text: multi-byte sequences and control bytes deleted, commas replaced by a
space, other printable bytes copied. -/
theorem sanitize_refines_reference (us : List name_unit) (max_len : Nat)
    (hv : ∀ u ∈ us, unit_valid u) (h1 : 1 ≤ max_len) (h2 : max_len < 2 ^ 32) :
    sanitize_device_name (units_bytes us) (units_bytes us).length max_len =
      (reference_sanitize us).take (max_len - 1) := by
  have hcap : size_sub_one max_len = max_len - 1 := by
    unfold size_sub_one
    norm_num at h2 ⊢
    omega
  have h := sanitize_loop_units max_len us hv (units_bytes us) [] []
    (units_bytes us).length rfl (le_refl _) (by simp)
  simp only [List.length_nil, List.nil_append] at h
  rw [sanitize_device_name, h, hcap]

theorem sanitize_refines_reference_witness :
    sanitize_device_name [65, 44, 0xE2, 0x82, 0xAC, 66, 7, 0xC3, 0xA9] 9 3 = [65, 32] :=
  sanitize_refines_reference sample_units 3 (by decide) (by decide) (by decide)

theorem received_line_newline (s : List Nat) : received_line (10 :: s) = [] := by
  simp [received_line, List.takeWhile_cons]

theorem received_line_cr (s : List Nat) : received_line (13 :: s) = received_line s := by
  simp [received_line, List.takeWhile_cons, List.filter_cons]

theorem received_line_other (c : Nat) (s : List Nat) (h1 : c ≠ 10) (h2 : c ≠ 13) :
    received_line (c :: s) = c :: received_line s := by
  simp [received_line, List.takeWhile_cons, List.filter_cons, h1, h2]

/-- The reader loop on events that all deliver a byte: once a newline is
delivered or the buffer fills, it returns the stored bytes followed by the
rest of the line, cut at the capacity. -/
theorem read_line_loop_bytes (cap : Nat) (timeout start : Int) :
    ∀ (evs : List io_event) (buffer : List Nat),
      (∀ e ∈ evs, ∃ c t, e = io_event.byte c t) → buffer.length ≤ cap →
      (10 ∈ delivered evs ∨ cap ≤ buffer.length + (received_line (delivered evs)).length) →
      read_line_loop ((cap : Int) + 1) timeout start evs buffer =
        some ((((buffer ++ received_line (delivered evs)).take cap).length : Int),
          (buffer ++ received_line (delivered evs)).take cap) := by
  intro evs
  induction evs with
  | nil =>
    intro buffer _ hlen h
    have hfull : ¬ buffer.length < cap := by
      rcases h with h | h
      · simp [delivered] at h
      · simp [delivered, received_line] at h; omega
    have hc : ¬ ((buffer.length : Int) < (cap : Int) + 1 - 1) := by omega
    simp only [read_line_loop, hc, if_false, delivered]
    rw [take_cap_full buffer _ cap hlen hfull]
  | cons e rest ih =>
    intro buffer hb hlen h
    obtain ⟨c, t, rfl⟩ := hb _ (List.mem_cons_self _ _)
    have hrest : ∀ e ∈ rest, ∃ c t, e = io_event.byte c t :=
      fun e he => hb e (List.mem_cons_of_mem _ he)
    by_cases hfull : buffer.length < cap
    · have hc : (buffer.length : Int) < (cap : Int) + 1 - 1 := by omega
      simp only [read_line_loop, hc, if_true, delivered]
      by_cases h10 : c = 10
      · subst h10
        simp only [if_true, received_line_newline, List.append_nil]
        rw [List.take_of_length_le hlen]
      · rw [if_neg h10]
        by_cases h13 : c = 13
        · subst h13
          simp only [ne_eq, not_true_eq_false, if_false, received_line_cr]
          refine ih buffer hrest hlen ?_
          rcases h with h | h
          · left; simpa [delivered] using h
          · right; simpa [delivered, received_line_cr] using h
        · rw [if_pos h13, received_line_other c _ h10 h13]
          have := ih (buffer ++ [c]) hrest (by simp; omega) (by
            rcases h with h | h
            · left
              simp only [delivered, List.mem_cons] at h
              rcases h with h | h
              · exact absurd h.symm h10
              · exact h
            · right
              simp only [delivered, received_line_other c _ h10 h13, List.length_cons] at h
              simp only [List.length_append, List.length_singleton]
              omega)
          simpa using this
    · have hc : ¬ ((buffer.length : Int) < (cap : Int) + 1 - 1) := by omega
      simp only [read_line_loop, hc, if_false]
      rw [take_cap_full buffer _ cap hlen hfull]

/-- The bytes in the buffer never include a newline or a carriage return,
whatever the transport does. -/
theorem read_line_loop_clean (buffer_size timeout start : Int) :
    ∀ (evs : List io_event) (buffer : List Nat) (ret : Int) (line : List Nat),
      10 ∉ buffer → 13 ∉ buffer →
      read_line_loop buffer_size timeout start evs buffer = some (ret, line) →
      10 ∉ line ∧ 13 ∉ line := by
  intro evs
  induction evs with
  | nil =>
    intro buffer ret line h10 h13 h
    simp only [read_line_loop] at h
    split_ifs at h
    simp only [Option.some.injEq, Prod.mk.injEq] at h
    rw [← h.2]; exact ⟨h10, h13⟩
  | cons e rest ih =>
    intro buffer ret line h10 h13 h
    have keep : ∀ r l, (some ((r : Int), buffer) : Option (Int × List Nat)) = some (l, line) →
        10 ∉ line ∧ 13 ∉ line := by
      intro r l hh
      simp only [Option.some.injEq, Prod.mk.injEq] at hh
      rw [← hh.2]; exact ⟨h10, h13⟩
    simp only [read_line_loop] at h
    split_ifs at h with hc
    · cases e with
      | byte c t =>
        simp only at h
        split_ifs at h with hc10 hc13
        · exact keep _ _ h
        · refine ih (buffer ++ [c]) ret line ?_ ?_ h
          · simp [h10, Ne.symm hc10]
          · simp [h13, Ne.symm hc13]
        · exact ih buffer ret line h10 h13 h
      | no_data now =>
        simp only at h
        split_ifs at h
        · exact keep _ _ h
        · exact ih buffer ret line h10 h13 h
      | select_error now => exact keep _ _ h
      | read_none now => exact ih buffer ret line h10 h13 h
    · exact keep _ _ h

/-! ### Line framer -/

/-- C13: when every event delivers a byte and `buffer_size >= 2`: if a
newline is delivered and the line before it (carriage returns removed) fits,
`read_line_with_timeout` returns that line and its length (0 for an immediate
newline); if `buffer_size - 1` bytes other than carriage return arrive before
any newline, it returns exactly those first `buffer_size - 1` bytes and the
value `buffer_size - 1`.  A returned line never contains a newline or a
carriage return. -/
theorem read_line_returns_line (evs : List io_event) (buffer_size : Nat) (timeout start : Int)
    (hsize : 2 ≤ buffer_size) (hbytes : ∀ e ∈ evs, ∃ c t, e = io_event.byte c t) :
    (10 ∈ delivered evs → (received_line (delivered evs)).length ≤ buffer_size - 1 →
      read_line_with_timeout evs buffer_size timeout start =
        some (((received_line (delivered evs)).length : Int), received_line (delivered evs))) ∧
    (buffer_size - 1 ≤ (received_line (delivered evs)).length →
      read_line_with_timeout evs buffer_size timeout start =
        some (((buffer_size - 1 : Nat) : Int),
          (received_line (delivered evs)).take (buffer_size - 1))) ∧
    (∀ ret line, read_line_with_timeout evs buffer_size timeout start = some (ret, line) →
      10 ∉ line ∧ 13 ∉ line) := by
  have hsz : (buffer_size : Int) = ((buffer_size - 1 : Nat) : Int) + 1 := by omega
  refine ⟨?_, ?_, ?_⟩
  · intro hnl hfit
    have h := read_line_loop_bytes (buffer_size - 1) timeout start evs [] hbytes (by simp)
      (Or.inl hnl)
    rw [read_line_with_timeout, hsz, h]
    simp only [List.nil_append, List.take_of_length_le hfit]
  · intro hfull
    have h := read_line_loop_bytes (buffer_size - 1) timeout start evs [] hbytes (by simp)
      (Or.inr (by simpa using hfull))
    rw [read_line_with_timeout, hsz, h]
    simp only [List.nil_append, List.length_take, Nat.min_eq_left hfull]
  · intro ret line h
    exact read_line_loop_clean _ _ _ evs [] ret line (by simp) (by simp) h

theorem read_line_returns_line_witness :
    read_line_with_timeout [io_event.byte 65 0, io_event.byte 13 0, io_event.byte 66 0,
        io_event.byte 10 1, io_event.byte 67 1] (256 : Nat) 11 0 =
      some (((received_line [65, 13, 66, 10, 67]).length : Int),
        received_line [65, 13, 66, 10, 67]) :=
  (read_line_returns_line [io_event.byte 65 0, io_event.byte 13 0, io_event.byte 66 0,
      io_event.byte 10 1, io_event.byte 67 1] 256 11 0 (by decide)
    (by
      intro e he
      simp only [List.mem_cons, List.mem_singleton, List.not_mem_nil, or_false] at he
      rcases he with rfl | rfl | rfl | rfl | rfl <;> exact ⟨_, _, rfl⟩)).1
    (by decide) (by decide)

/-- C14 (failing input): with `timeout_seconds = 11` and the call started at
time 0, one byte `x` arrives in each of the seconds 1 to 12 and a newline at
second 13.  At second 12 the deadline has passed and no newline has been
received, yet the call has not failed (it is still reading); after the
newline it returns the 12-byte line as a success. -/
theorem read_line_deadline_missed :
    (12 : Int) - 0 ≥ 11 ∧
    read_line_with_timeout
      [io_event.byte 120 1, io_event.byte 120 2, io_event.byte 120 3, io_event.byte 120 4,
       io_event.byte 120 5, io_event.byte 120 6, io_event.byte 120 7, io_event.byte 120 8,
       io_event.byte 120 9, io_event.byte 120 10, io_event.byte 120 11, io_event.byte 120 12]
      256 11 0 = none ∧
    read_line_with_timeout
      [io_event.byte 120 1, io_event.byte 120 2, io_event.byte 120 3, io_event.byte 120 4,
       io_event.byte 120 5, io_event.byte 120 6, io_event.byte 120 7, io_event.byte 120 8,
       io_event.byte 120 9, io_event.byte 120 10, io_event.byte 120 11, io_event.byte 120 12,
       io_event.byte 10 13] 256 11 0 =
      some (12, [120, 120, 120, 120, 120, 120, 120, 120, 120, 120, 120, 120]) := by
  decide

/-! ### Collector invariant -/

/-- Whatever the state, the completion event followed by the stop event
writes the results and `END`, and then the empty-results message and a second
`END`. -/
theorem completion_then_stop_output (st : producer_state) (success : Bool) :
    (esp_gap_cb (esp_gap_cb st gap_event.search_inq_cmpl)
        (gap_event.scan_stop_complete success)).output =
      st.output ++ display_sorted_results st.scan_results ++ "END\n".toList ++
        "No devices found during scan.\n".toList ++ "END\n".toList := by
  simp [esp_gap_cb, send_scan_end, display_sorted_results]

/-- C15 (failing input): in a scan window with one stored entry, the
completion event alone emits one `END` line, but when the stop event and the
completion event both arrive, in either order, two `END` lines are emitted
for the window. -/
theorem scan_end_emitted_twice :
    end_count (esp_gap_cb sample_window gap_event.search_inq_cmpl).output = 1 ∧
    end_count (esp_gap_cb (esp_gap_cb sample_window gap_event.search_inq_cmpl)
      (gap_event.scan_stop_complete true)).output = 2 ∧
    end_count (esp_gap_cb (esp_gap_cb sample_window (gap_event.scan_stop_complete true))
      gap_event.search_inq_cmpl).output = 2 := by
  decide

end BleScan
